import Mathlib

/-!
Verification development for the CPU control-plane allocation core
(intel/cpu-control-plane-plugin-for-kubernetes).

The Go sources are shallowly embedded: every Go function used by a claim is
translated into a pure Lean function over explicit state values.  Go maps are
modelled as association lists (`mapLookup` / `mapInsert` / `mapErase`), Go
`int` / `int32` as `Int` (with explicit wrap-around where the 32-bit width
matters), in-place tree mutation as pure tree rebuilding, and the cgroup
controller as an explicit success oracle.
-/

namespace CtlPlane

/-! ## Association-list model of Go maps -/

section Maps

variable {κ α : Type} [DecidableEq κ]

/-- Lookup in a Go map modelled as an association list. -/
def mapLookup : List (κ × α) → κ → Option α
  | [], _ => none
  | (k, v) :: rest, key => if k = key then some v else mapLookup rest key

/-- Go map read with the zero value as default (`m[k]` on an absent key). -/
def mapLookupD (m : List (κ × α)) (key : κ) (dflt : α) : α :=
  (mapLookup m key).getD dflt

/-- Go map write `m[k] = v`: replaces the binding in place or appends it. -/
def mapInsert : List (κ × α) → κ → α → List (κ × α)
  | [], key, v => [(key, v)]
  | (k, w) :: rest, key, v =>
      if k = key then (k, v) :: rest else (k, w) :: mapInsert rest key v

/-- Go `delete(m, k)`. -/
def mapErase : List (κ × α) → κ → List (κ × α)
  | [], _ => []
  | (k, w) :: rest, key =>
      if k = key then mapErase rest key else (k, w) :: mapErase rest key

/-- The keys of an association list. -/
def mapKeys (m : List (κ × α)) : List κ := m.map Prod.fst

theorem mapLookup_insert_self (m : List (κ × α)) (k : κ) (v : α) :
    mapLookup (mapInsert m k v) k = some v := by
  induction m with
  | nil => simp [mapInsert, mapLookup]
  | cons hd tl ih =>
      obtain ⟨k0, v0⟩ := hd
      by_cases h : k0 = k <;> simp [mapInsert, mapLookup, h, ih]

theorem mapLookup_insert_ne (m : List (κ × α)) (k k1 : κ) (v : α) (h : k ≠ k1) :
    mapLookup (mapInsert m k v) k1 = mapLookup m k1 := by
  induction m with
  | nil => simp [mapInsert, mapLookup, h]
  | cons hd tl ih =>
      obtain ⟨k0, v0⟩ := hd
      by_cases h0 : k0 = k
      · subst h0
        simp [mapInsert, mapLookup, h]
      · simp [mapInsert, mapLookup, h0, ih]

end Maps

/-! ## Core data model (`pkg/cpudaemon`) -/

/-- `ctlplaneapi.CPUBucket`: a closed range of cpu ids. -/
structure CPUBucket where
  startCPU : Int
  endCPU : Int
deriving DecidableEq, Repr

/-- QoS classes (`cpudaemon.QoS`). -/
inductive QoS where
  | Guaranteed
  | BestEffort
  | Burstable
deriving DecidableEq, Repr

/-- `cpudaemon.Container`. -/
structure Container where
  cid : String
  pid : String
  name : String
  cpus : Int
  qs : QoS
deriving DecidableEq, Repr

/-- `cpudaemon.PodMetadata`. -/
structure PodMetadata where
  pid : String
  name : String
  namesp : String
  containers : List Container
deriving DecidableEq, Repr

/-- Error kinds (`cpudaemon.DError`). -/
inductive DError where
  | CpusNotAvailable
  | PodNotFound
  | PodSpecError
  | ContainerNotFound
  | MissingCgroup
  | UnknownTopology
  | RuntimeError
  | NotImplemented
deriving DecidableEq, Repr

/-- Error messages, modelled structurally instead of as formatted strings. -/
inductive ErrMsg where
  /-- `ErrNotEnoughSpaceInBucket`: "not enough free cpus in namespace bucket",
  wrapped as "cannot allocate %d cpus, only %d processors available in bucket". -/
  | notEnoughSpaceInBucket (want avail : Int)
  /-- `ErrBucketNotFound`: "namespace cpu bucket not found". -/
  | bucketNotFound
  /-- "number of guaranteed container cpus shall be greater than 0". -/
  | guaranteedZeroCpus
  /-- "cannot retrieve pod %s metadata". -/
  | podMetadataMissing (pid : String)
  /-- "No available cpus for take request". -/
  | noAvailableCpus
  /-- `numautils.ErrNotAvailable`: "not enough cpus available". -/
  | topologyNotAvailable
  /-- `numautils.ErrNotFound`: "cpu not found". -/
  | topologyCpuNotFound
  /-- `numautils.ErrNotALeaf`: "node is not a leaf". -/
  | notALeaf
  /-- "Container %s not available for deletion". -/
  | containerNotAllocated (cid : String)
  /-- an error propagated from a cgroup write. -/
  | cgroupWrite
  /-- any other message. -/
  | other
deriving DecidableEq, Repr

/-- `cpudaemon.DaemonError`. -/
structure DaemonError where
  errorType : DError
  errorMessage : ErrMsg
deriving DecidableEq, Repr

/-! ## Topology tree (`pkg/numautils/topology.go`)

`TopologyNode` holds a value (the `nodeInfo.Value`; the `nodeInfo.Type` label
is carried only for construction fidelity and never inspected by the
operations), the mutable `NumAvailable` counter and the child list.  Pointer
identity of the Go tree is replaced by paths: a node is addressed by the list
of child indices from the root. -/

inductive TopologyNode where
  | node (ty : Nat) (value : Int) (numAvailable : Int) (children : List TopologyNode)

namespace TopologyNode

/-- `NumAvailable` field. -/
def avail : TopologyNode → Int
  | node _ _ a _ => a

/-- `Value` field. -/
def value : TopologyNode → Int
  | node _ v _ _ => v

/-- Child list. -/
def children : TopologyNode → List TopologyNode
  | node _ _ _ cs => cs

/-- `TopologyNode.IsLeaf`. -/
def isLeaf (t : TopologyNode) : Bool := t.children.isEmpty

/-- `TopologyNode.Available`: `NumAvailable > 0`. -/
def availableB (t : TopologyNode) : Bool := 0 < t.avail

/-- Sum of the children's `NumAvailable`. -/
def sumAvail (cs : List TopologyNode) : Int := (cs.map avail).sum

end TopologyNode

open TopologyNode

/-- Replace element `i` of a list with `f` applied to it (in-place Go update). -/
def listModify {α : Type} (f : α → α) : Nat → List α → List α
  | _, [] => []
  | 0, x :: xs => f x :: xs
  | n + 1, x :: xs => x :: listModify f n xs

theorem listModify_length {α : Type} (f : α → α) (i : Nat) (l : List α) :
    (listModify f i l).length = l.length := by
  induction l generalizing i with
  | nil => cases i <;> rfl
  | cons x xs ih => cases i <;> simp [listModify, ih]

/-- Fetch the node addressed by a path of child indices. -/
def getNode : TopologyNode → List Nat → Option TopologyNode
  | t, [] => some t
  | t, i :: p =>
      match t.children.get? i with
      | some c => getNode c p
      | none => none

/-- Tree size, used for the BFS termination measure. -/
def treeSize : TopologyNode → Nat
  | .node _ _ _ cs => 1 + treeSizeList cs
where
  treeSizeList : List TopologyNode → Nat
    | [] => 0
    | c :: cs => treeSize c + treeSizeList cs

theorem treeSize_pos (t : TopologyNode) : 0 < treeSize t := by
  cases t with
  | node ty v a cs => simp [treeSize]

theorem treeSizeList_eq_sum (cs : List TopologyNode) :
    treeSize.treeSizeList cs = (cs.map treeSize).sum := by
  induction cs with
  | nil => rfl
  | cons c cs ih => simp [treeSize.treeSizeList, ih]

/-- One BFS step measure: total size of the queued subtrees. -/
def queueSize (q : List (List Nat × TopologyNode)) : Nat :=
  (q.map (fun e => treeSize e.2)).sum

/-! ### `takeLeaves` (`topology.go:186-217`)

The Go method mutates the receiver in place and returns the taken leaves and
an error.  The embedding returns the rebuilt node, the taken cpu ids
(`leaf.Value` of each returned leaf) and an error flag.  The list helper
mirrors the `for` loop over `t.Children` with its `continue`, early `return`
on error and `break` once `len(leaves) == n`; `collected` is `len(leaves)`
before the current iteration. -/

mutual

def takeLeaves : TopologyNode → Int → TopologyNode × List Int × Bool
  | .node ty v a cs, n =>
    if a < n then (.node ty v a cs, [], true)
    else if cs.isEmpty then (.node ty v 0 cs, [v], false)
    else
      match takeLeavesList cs n 0 with
      | (cs2, ls, true) => (.node ty v a cs2, ls, true)
      | (cs2, ls, false) => (.node ty v (a - n) cs2, ls, false)

def takeLeavesList : List TopologyNode → Int → Int → List TopologyNode × List Int × Bool
  | [], _, _ => ([], [], false)
  | c :: cs, n, collected =>
    if c.avail = 0 then
      match takeLeavesList cs n collected with
      | (cs2, ls, e) => (c :: cs2, ls, e)
    else
      match takeLeaves c (min (n - collected) c.avail) with
      | (c2, taken, true) => (c2 :: cs, taken, true)
      | (c2, taken, false) =>
        if collected + (taken.length : Int) = n then (c2 :: cs, taken, false)
        else
          match takeLeavesList cs n (collected + (taken.length : Int)) with
          | (cs2, ls, e) => (c2 :: cs2, taken ++ ls, e)

end

/-- Best candidate so far in `findLowestNodeWithEnoughAvailability`
(`bestLevel`, `bestLevelNum`); `bestLevelNum` starts at 0. -/
def bestNum : Option (Nat × List Nat × Nat) → Nat
  | none => 0
  | some (_, _, ln) => ln

/-! ### `findLowestNodeWithEnoughAvailability` (`topology.go:164-184`)

Returns the path (child indices from the receiver) to the chosen node and its
level.  The list helper folds over the children keeping the first candidate
whose level is strictly greater than the best so far. -/

mutual

def findLowest : TopologyNode → Int → Nat → Option (List Nat × Nat)
  | .node _ _ a cs, n, lvl =>
    if a < n then none
    else
      match findLowestList cs n (lvl + 1) 0 none with
      | none => some ([], lvl)
      | some (i, p, ln) => some (i :: p, ln)

def findLowestList :
    List TopologyNode → Int → Nat → Nat → Option (Nat × List Nat × Nat) →
      Option (Nat × List Nat × Nat)
  | [], _, _, _, best => best
  | c :: cs, n, lvl, idx, best =>
    let best2 :=
      match findLowest c n lvl with
      | some (p, ln) => if bestNum best < ln then some (idx, p, ln) else best
      | none => best
    findLowestList cs n lvl (idx + 1) best2

end

/-! ### `NumaTopology.Take` (`numa.go:30-52`)

The Go code runs `takeLeaves` on the node found by
`findLowestNodeWithEnoughAvailability` and then subtracts `n` from every
strict predecessor of that node (found again by pointer identity), before
checking the `takeLeaves` error.  `takeAtPath` fuses the subtree update and
the predecessor decrements into one pass along the path. -/

def takeAtPath : TopologyNode → List Nat → Int → TopologyNode × List Int × Bool
  | t, [], n => takeLeaves t n
  | .node ty v a cs, i :: p, n =>
    match cs.get? i with
    | some c =>
      match takeAtPath c p n with
      | (c2, ls, e) => (.node ty v (a - n) (listModify (fun _ => c2) i cs), ls, e)
    | none => (.node ty v a cs, [], true)

/-- `NumaTopology.Take`: returns the new tree and `some cpuIds` on success,
`none` on `ErrNotAvailable`. -/
def numaTake (t : TopologyNode) (n : Int) : TopologyNode × Option (List Int) :=
  match findLowest t n 0 with
  | none => (t, none)
  | some (p, _) =>
    match takeAtPath t p n with
    | (t2, _, true) => (t2, none)
    | (t2, ls, false) => (t2, some ls)

/-! ### `find` / `Return` (`topology.go:221-233`, `numa.go:65-77`) -/

mutual

/-- `TopologyNode.find` with comparator `IsLeaf() && Value == cpuID`,
returning the path as child indices from the root (the Go version returns the
node list from the leaf up; only the addressed nodes matter). -/
def findCpuPath : TopologyNode → Int → Option (List Nat)
  | .node _ v _ cs, cpu =>
    if cs.isEmpty && v = cpu then some []
    else findCpuPathList cs cpu 0

def findCpuPathList : List TopologyNode → Int → Nat → Option (List Nat)
  | [], _, _ => none
  | c :: cs, cpu, idx =>
    match findCpuPath c cpu with
    | some p => some (idx :: p)
    | none => findCpuPathList cs cpu (idx + 1)

end

/-- Increment `NumAvailable` of every node along a path (leaf and all its
predecessors up to the root). -/
def incPath : TopologyNode → List Nat → TopologyNode
  | .node ty v a cs, [] => .node ty v (a + 1) cs
  | .node ty v a cs, i :: p => .node ty v (a + 1) (listModify (fun c => incPath c p) i cs)

/-- `NumAvailable` of the node at a path (0 when the path is invalid, which
never happens for paths produced by `findCpuPath`). -/
def availAt (t : TopologyNode) (p : List Nat) : Int :=
  match getNode t p with
  | some x => x.avail
  | none => 0

/-- `NumaTopology.Return`: increments the whole path only when the leaf was
taken (`NumAvailable == 0`); errors when the cpu is not in the tree. -/
def numaReturn (t : TopologyNode) (cpu : Int) : TopologyNode × Option ErrMsg :=
  match findCpuPath t cpu with
  | none => (t, some .topologyCpuNotFound)
  | some p => if availAt t p = 0 then (incPath t p, none) else (t, none)

/-! ### `GetLeafs` (`topology.go:72-86`)

Breadth-first walk with a queue, collecting leaf positions in pop order.  The
embedding returns paths so that later `Available()` / `Take()` calls through
the returned pointers can be replayed against the tree. -/

theorem enumChildren_treeSize (p : List Nat) (cs : List TopologyNode) :
    ((cs.enum.map (fun e => (p ++ [e.1], e.2))).map (fun e => treeSize e.2)).sum =
      (cs.map treeSize).sum := by
  rw [List.map_map]
  have h1 : ((fun e => treeSize e.2) ∘ (fun e : Nat × TopologyNode => (p ++ [e.1], e.2))) =
      fun e : Nat × TopologyNode => treeSize e.2 := rfl
  rw [h1]
  have h2 : cs.enum.map (fun e : Nat × TopologyNode => treeSize e.2) =
      (cs.enum.map Prod.snd).map treeSize := by
    rw [List.map_map]
    rfl
  rw [h2, List.enum_map_snd]

def bfsLeafPaths : List (List Nat × TopologyNode) → List (List Nat)
  | [] => []
  | (p, t) :: q =>
    if t.isLeaf then p :: bfsLeafPaths q
    else bfsLeafPaths (q ++ t.children.enum.map (fun e => (p ++ [e.1], e.2)))
termination_by q => queueSize q
decreasing_by
  · simp only [queueSize, List.map_cons, List.sum_cons]
    have := treeSize_pos t
    omega
  · simp only [queueSize, List.map_cons, List.sum_cons, List.map_append, List.sum_append]
    rw [enumChildren_treeSize]
    cases t with
    | node ty v a cs =>
      simp only [TopologyNode.children, treeSize]
      have := treeSizeList_eq_sum cs
      omega

/-- The same BFS with an explicit fuel bound (every step consumes at least
one unit of `queueSize`), so that concrete calls reduce in the kernel. -/
def bfsGo : Nat → List (List Nat × TopologyNode) → List (List Nat)
  | 0, _ => []
  | _ + 1, [] => []
  | fuel + 1, (p, t) :: q =>
    if t.isLeaf then p :: bfsGo fuel q
    else bfsGo fuel (q ++ t.children.enum.map (fun e => (p ++ [e.1], e.2)))

theorem bfsGo_spec : ∀ (fuel : Nat) (q : List (List Nat × TopologyNode)),
    queueSize q ≤ fuel → bfsGo fuel q = bfsLeafPaths q := by
  intro fuel
  induction fuel with
  | zero =>
    intro q hq
    cases q with
    | nil => simp [bfsGo, bfsLeafPaths]
    | cons e rest =>
      exfalso
      obtain ⟨p, t⟩ := e
      have := treeSize_pos t
      simp only [queueSize, List.map_cons, List.sum_cons] at hq
      omega
  | succ fuel ih =>
    intro q hq
    cases q with
    | nil => simp [bfsGo, bfsLeafPaths]
    | cons e rest =>
      obtain ⟨p, t⟩ := e
      have ht := treeSize_pos t
      simp only [queueSize, List.map_cons, List.sum_cons] at hq
      by_cases hleaf : t.isLeaf
      · have hrest : queueSize rest ≤ fuel := by
          simp only [queueSize]
          omega
        simp [bfsGo, bfsLeafPaths, hleaf, ih rest hrest]
      · have happ : queueSize (rest ++ t.children.enum.map (fun e => (p ++ [e.1], e.2))) ≤ fuel := by
          simp only [queueSize, List.map_append, List.sum_append]
          rw [enumChildren_treeSize]
          cases t with
          | node ty v a cs =>
            simp only [TopologyNode.children, treeSize] at ht ⊢
            have := treeSizeList_eq_sum cs
            have h2 : treeSize (.node ty v a cs) = 1 + treeSize.treeSizeList cs := rfl
            rw [h2] at hq
            omega
        simp [bfsGo, bfsLeafPaths, hleaf, ih _ happ]

/-- `TopologyNode.GetLeafs`, as leaf paths in BFS order.  Defined through the
fueled walk (with fuel `treeSize t`, always sufficient:
`getLeafPaths_eq_bfsLeafPaths`) so that concrete topologies evaluate by
kernel reduction. -/
def getLeafPaths (t : TopologyNode) : List (List Nat) := bfsGo (treeSize t) [([], t)]

theorem getLeafPaths_eq_bfsLeafPaths (t : TopologyNode) :
    getLeafPaths t = bfsLeafPaths [([], t)] := by
  unfold getLeafPaths
  apply bfsGo_spec
  simp [queueSize]

/-- `Value` of the node at a path (0 when invalid, never reached on paths
from `getLeafPaths`). -/
def valueAt (t : TopologyNode) (p : List Nat) : Int :=
  match getNode t p with
  | some x => x.value
  | none => 0

/-- `TopologyNode.Take` on a single node (`topology.go:94-100`): decrements
the leaf counter only; errors on non-leaf nodes. -/
def leafTakeAt (t : TopologyNode) (p : List Nat) : TopologyNode × Option ErrMsg :=
  match getNode t p with
  | some x =>
    if x.isLeaf then
      (modifyAt t p, none)
    else (t, some .notALeaf)
  | none => (t, some .notALeaf)
where
  /-- rebuild with `NumAvailable--` at the addressed node. -/
  modifyAt : TopologyNode → List Nat → TopologyNode
    | .node ty v a cs, [] => .node ty v (a - 1) cs
    | .node ty v a cs, i :: p => .node ty v a (listModify (fun c => modifyAt c p) i cs)

/-! ### Topology construction (`numa.go:100-122`, `topology.go:141-162`, `topology.go:244-266`)

Topology entry types are the Go enum values:
0 = Machine, 1 = Node, 2 = Package, 3 = Die, 4 = Core, 5 = Cpu. -/

/-- `numautils.CpuInfo`. -/
structure CpuInfo where
  cpu : Int
  nodeId : Int
  pkg : Int
  die : Int
  core : Int
deriving DecidableEq, Repr

/-- `TopologyEntryType.valueFromCpuInfo`. -/
def valueOfType (ty : Nat) (c : CpuInfo) : Int :=
  match ty with
  | 1 => c.nodeId
  | 2 => c.pkg
  | 3 => c.die
  | 4 => c.core
  | 5 => c.cpu
  | _ => -1

/-- `getUsedTopoTypes`: keep only the levels whose value differs between some
two cpus. -/
def getUsedTopoTypes (cpus : List CpuInfo) : List Nat :=
  match cpus with
  | [] => []
  | c0 :: rest =>
    [1, 2, 3, 4, 5].filter (fun ty => ¬ rest.all (fun c => valueOfType ty c = valueOfType ty c0))

/-- First child whose `Value` equals the given value (`append`'s child scan). -/
def findChildIdx (cs : List TopologyNode) (v : Int) : Option Nat :=
  go cs 0
where
  go : List TopologyNode → Nat → Option Nat
    | [], _ => none
    | c :: cs, i => if c.value = v then some i else go cs (i + 1)

/-- `TopologyNode.append`: insert one cpu's `nodeInfo` path. -/
def appendPath : TopologyNode → List (Nat × Int) → TopologyNode
  | .node ty v _ cs, [] => .node ty v 1 cs
  | .node ty v a cs, (nty, nv) :: rest =>
    match findChildIdx cs nv with
    | some i => .node ty v (a + 1) (listModify (fun c => appendPath c rest) i cs)
    | none => .node ty v (a + 1) (cs ++ [appendPath (.node nty nv 0 []) rest])

/-- `cpuInfoToTopology`: fold `append` over the cpu list starting from the
zero-valued Machine root. -/
def cpuInfoToTopology (cpus : List CpuInfo) : TopologyNode :=
  let tt := getUsedTopoTypes cpus
  cpus.foldl (fun t c => appendPath t (tt.map (fun ty => (ty, valueOfType ty c)))) (.node 0 0 0 [])

/-! ### Well-formedness

`wfB` is the documented invariant of `TopologyNode` (`topology.go:52-55`):
leaves carry 0 or 1, every inner node carries the sum of its children.
`i2B` is just the sum equation of the claim (invariant I2). -/

mutual

def wfB : TopologyNode → Bool
  | .node _ _ a cs =>
    if cs.isEmpty then a == 0 || a == 1
    else (a == sumAvail cs) && wfListB cs

def wfListB : List TopologyNode → Bool
  | [] => true
  | c :: cs => wfB c && wfListB cs

end

mutual

def i2B : TopologyNode → Bool
  | .node _ _ a cs => (cs.isEmpty || (a == sumAvail cs)) && i2ListB cs

def i2ListB : List TopologyNode → Bool
  | [] => true
  | c :: cs => i2B c && i2ListB cs

end

/-- The two-socket, eight-cpu topology used by the repository's own
`TestTake` (cpus 1,3,5,7 on node 0 and 2,4,6,8 on node 1). -/
def testNumaTree : TopologyNode :=
  cpuInfoToTopology [⟨1,0,0,0,0⟩, ⟨3,0,0,0,0⟩, ⟨5,0,0,0,1⟩, ⟨7,0,0,0,1⟩,
                     ⟨2,1,0,0,0⟩, ⟨4,1,0,0,0⟩, ⟨6,1,0,0,1⟩, ⟨8,1,0,0,1⟩]

/-! ### Tree induction and basic well-formedness lemmas -/

theorem treeSize_lt_of_mem {c : TopologyNode} {ty : Nat} {v a : Int}
    {cs : List TopologyNode} (h : c ∈ cs) :
    treeSize c < treeSize (.node ty v a cs) := by
  have h1 : treeSize c ≤ (cs.map treeSize).sum := List.single_le_sum (fun _ _ => Nat.zero_le _) _ (List.mem_map_of_mem treeSize h)
  simp only [treeSize]
  rw [treeSizeList_eq_sum]
  omega

/-- Member-wise induction principle for the nested topology tree. -/
theorem tree_ind (P : TopologyNode → Prop)
    (h : ∀ ty v a cs, (∀ c ∈ cs, P c) → P (.node ty v a cs)) : ∀ t, P t
  | .node ty v a cs => h ty v a cs (fun c hc => tree_ind P h c)
termination_by t => treeSize t
decreasing_by exact treeSize_lt_of_mem hc

theorem wfListB_iff (cs : List TopologyNode) :
    wfListB cs = true ↔ ∀ c ∈ cs, wfB c = true := by
  induction cs with
  | nil => simp [wfListB]
  | cons c cs ih => simp [wfListB, ih]

theorem wfB_leaf_iff (ty : Nat) (v a : Int) :
    wfB (.node ty v a []) = true ↔ a = 0 ∨ a = 1 := by
  simp [wfB]

theorem wfB_node_iff (ty : Nat) (v a : Int) (cs : List TopologyNode) (h : cs ≠ []) :
    wfB (.node ty v a cs) = true ↔ a = sumAvail cs ∧ wfListB cs = true := by
  have : cs.isEmpty = false := by
    cases cs with
    | nil => exact absurd rfl h
    | cons x xs => rfl
  simp [wfB, this]

theorem wf_avail_nonneg : ∀ t, wfB t = true → 0 ≤ t.avail := by
  intro t
  induction t using tree_ind with
  | h ty v a cs ih =>
    intro hwf
    cases hcs : cs with
    | nil =>
      subst hcs
      rcases (wfB_leaf_iff ty v a).1 hwf with h0 | h0 <;> simp [avail, h0]
    | cons c0 cs0 =>
      have hne : cs ≠ [] := by simp [hcs]
      obtain ⟨hsum, hlist⟩ := (wfB_node_iff ty v a cs hne).1 hwf
      have hmem := (wfListB_iff cs).1 hlist
      have : 0 ≤ sumAvail cs := by
        apply List.sum_nonneg
        intro x hx
        obtain ⟨c, hc, rfl⟩ := List.mem_map.1 hx
        exact ih c hc (hmem c hc)
      simp only [avail]
      omega

theorem wf_getNode : ∀ p t sub, wfB t = true → getNode t p = some sub → wfB sub = true := by
  intro p
  induction p with
  | nil =>
    intro t sub hwf hget
    simp only [getNode, Option.some.injEq] at hget
    exact hget ▸ hwf
  | cons i p ih =>
    intro t sub hwf hget
    cases t with
    | node ty v a cs =>
      simp only [getNode, children] at hget
      cases hcg : cs.get? i with
      | none => rw [hcg] at hget; exact absurd hget (by simp)
      | some c =>
        rw [hcg] at hget
        have hmem : c ∈ cs := List.get?_mem hcg
        have hne : cs ≠ [] := by intro h; subst h; simp at hcg
        obtain ⟨_, hlist⟩ := (wfB_node_iff ty v a cs hne).1 hwf
        exact ih c sub ((wfListB_iff cs).1 hlist c hmem) hget

theorem listModify_get?_self {α : Type} (f : α → α) {cs : List α} {i : Nat} {c : α}
    (h : cs.get? i = some c) : (listModify f i cs).get? i = some (f c) := by
  induction cs generalizing i with
  | nil => simp at h
  | cons x xs ih =>
    cases i with
    | zero => simp_all [listModify]
    | succ n => simpa [listModify] using ih (by simpa using h)

theorem sumAvail_modify (f : TopologyNode → TopologyNode) {cs : List TopologyNode}
    {i : Nat} {c : TopologyNode} (h : cs.get? i = some c) :
    sumAvail (listModify f i cs) = sumAvail cs - c.avail + (f c).avail := by
  induction cs generalizing i with
  | nil => simp at h
  | cons x xs ih =>
    cases i with
    | zero =>
      simp only [List.get?, Option.some.injEq] at h
      subst h
      simp only [listModify, sumAvail, List.map_cons, List.sum_cons]
      ring
    | succ n =>
      simp only [List.get?] at h
      have hxs := ih h
      simp only [sumAvail] at hxs
      simp only [listModify, sumAvail, List.map_cons, List.sum_cons]
      omega

theorem wfListB_modify (f : TopologyNode → TopologyNode) {cs : List TopologyNode}
    {i : Nat} (hl : wfListB cs = true)
    (hf : ∀ c, cs.get? i = some c → wfB (f c) = true) :
    wfListB (listModify f i cs) = true := by
  induction cs generalizing i with
  | nil => cases i <;> simpa [listModify] using hl
  | cons x xs ih =>
    simp only [wfListB, Bool.and_eq_true] at hl
    cases i with
    | zero =>
      simp only [listModify, wfListB, Bool.and_eq_true]
      exact ⟨hf x rfl, hl.2⟩
    | succ n =>
      simp only [listModify, wfListB, Bool.and_eq_true]
      exact ⟨hl.1, ih hl.2 (fun c hc => hf c (by simpa using hc))⟩

/-! ### `takeLeaves` succeeds and preserves well-formedness -/

theorem takeLeavesList_success :
    ∀ (cs : List TopologyNode) (n col : Int),
    (∀ c ∈ cs, ∀ m : Int, wfB c = true → 1 ≤ m → m ≤ c.avail →
      ∃ c2 ls, takeLeaves c m = (c2, ls, false) ∧ wfB c2 = true ∧
        c2.avail = c.avail - m ∧ (ls.length : Int) = m) →
    wfListB cs = true → 1 ≤ n - col → n - col ≤ sumAvail cs →
    ∃ cs2 ls, takeLeavesList cs n col = (cs2, ls, false) ∧ wfListB cs2 = true ∧
      sumAvail cs2 = sumAvail cs - (n - col) ∧ (ls.length : Int) = n - col ∧
      cs2.length = cs.length := by
  intro cs
  induction cs with
  | nil =>
    intro n col _ _ h1 h2
    simp only [sumAvail, List.map_nil, List.sum_nil] at h2
    omega
  | cons c cs ih =>
    intro n col hmem hwfl h1 h2
    have hwc : wfB c = true := ((wfListB_iff _).1 hwfl c (by simp))
    have hwcs : wfListB cs = true := by
      rw [wfListB_iff]
      intro x hx
      exact (wfListB_iff _).1 hwfl x (by simp [hx])
    have hsum : sumAvail (c :: cs) = c.avail + sumAvail cs := by
      simp [sumAvail]
    by_cases hc0 : c.avail = 0
    · obtain ⟨cs2, ls, heq, hw2, hs2, hl2, hlen2⟩ :=
        ih n col (fun x hx => hmem x (by simp [hx])) hwcs h1 (by omega)
      refine ⟨c :: cs2, ls, ?_, ?_, ?_, hl2, by simp [hlen2]⟩
      · simp [takeLeavesList, hc0, heq]
      · rw [wfListB_iff]
        intro x hx
        rcases List.mem_cons.1 hx with rfl | hx
        · exact hwc
        · exact (wfListB_iff _).1 hw2 x hx
      · simp [sumAvail] at hs2 ⊢
        omega
    · have hca : 0 ≤ c.avail := wf_avail_nonneg c hwc
      have hca1 : 1 ≤ c.avail := by omega
      have hm1 : 1 ≤ min (n - col) c.avail := le_min h1 hca1
      have hm2 : min (n - col) c.avail ≤ c.avail := min_le_right _ _
      obtain ⟨c2, taken, heqc, hwc2, hac2, hlen⟩ :=
        hmem c (by simp) (min (n - col) c.avail) hwc hm1 hm2
      rcases le_or_lt (n - col) c.avail with hcase | hcase
      · -- the head child can supply everything that is still needed
        have hmval : min (n - col) c.avail = n - col := min_eq_left hcase
        rw [hmval] at hac2 hlen
        have hdone : col + (taken.length : Int) = n := by omega
        refine ⟨c2 :: cs, taken, ?_, ?_, ?_, by omega, by simp⟩
        · simp [takeLeavesList, hc0, heqc, hdone]
        · rw [wfListB_iff]
          intro x hx
          rcases List.mem_cons.1 hx with rfl | hx
          · exact hwc2
          · exact (wfListB_iff _).1 hwcs x hx
        · simp only [sumAvail, List.map_cons, List.sum_cons]
          omega
      · -- the head child is drained and the loop continues with the tail
        have hmval : min (n - col) c.avail = c.avail := min_eq_right (le_of_lt hcase)
        rw [hmval] at hac2 hlen
        have hdone : ¬ col + (taken.length : Int) = n := by omega
        have h1b : 1 ≤ n - (col + (taken.length : Int)) := by omega
        have h2b : n - (col + (taken.length : Int)) ≤ sumAvail cs := by omega
        obtain ⟨cs2, ls2, heq2, hw2, hs2, hl2, hlen2⟩ :=
          ih n (col + (taken.length : Int)) (fun x hx => hmem x (by simp [hx])) hwcs h1b h2b
        refine ⟨c2 :: cs2, taken ++ ls2, ?_, ?_, ?_, ?_, by simp [hlen2]⟩
        · simp [takeLeavesList, hc0, heqc, hdone, heq2]
        · rw [wfListB_iff]
          intro x hx
          rcases List.mem_cons.1 hx with rfl | hx
          · exact hwc2
          · exact (wfListB_iff _).1 hw2 x hx
        · simp only [sumAvail, List.map_cons, List.sum_cons] at hs2 ⊢
          omega
        · simp only [List.length_append, Nat.cast_add]
          omega

theorem takeLeaves_success :
    ∀ t, wfB t = true → ∀ n : Int, 1 ≤ n → n ≤ t.avail →
    ∃ t2 ls, takeLeaves t n = (t2, ls, false) ∧ wfB t2 = true ∧
      t2.avail = t.avail - n ∧ (ls.length : Int) = n := by
  intro t
  induction t using tree_ind with
  | h ty v a cs ih =>
    intro hwf n h1 h2
    simp only [avail] at h2
    cases hcs : cs with
    | nil =>
      subst hcs
      have ha : a = 0 ∨ a = 1 := (wfB_leaf_iff ty v a).1 hwf
      have ha1 : a = 1 := by omega
      have hn1 : n = 1 := by omega
      refine ⟨.node ty v 0 [], [v], ?_, ?_, ?_, ?_⟩
      · simp [takeLeaves, hn1, ha1]
      · simp [wfB_leaf_iff]
      · simp [avail, ha1, hn1]
      · simp [hn1]
    | cons c0 cs0 =>
      subst hcs
      have hne : (c0 :: cs0) ≠ [] := by simp
      obtain ⟨hsum, hlist⟩ := (wfB_node_iff ty v a _ hne).1 hwf
      obtain ⟨cs2, ls, heq, hw2, hs2, hl2, hlen2⟩ :=
        takeLeavesList_success (c0 :: cs0) n 0
          (fun c hc m hw hm1 hm2 => ih c hc hw m hm1 hm2) hlist (by omega) (by omega)
      have hcs2ne : cs2 ≠ [] := by
        intro hnil
        rw [hnil] at hlen2
        simp at hlen2
      refine ⟨.node ty v (a - n) cs2, ls, ?_, ?_, ?_, by omega⟩
      · have hnlt : ¬ a < n := by omega
        simp [takeLeaves, hnlt, heq]
      · rw [wfB_node_iff _ _ _ _ hcs2ne]
        exact ⟨by omega, hw2⟩
      · simp [avail]

/-! ### `findLowestNodeWithEnoughAvailability` soundness -/

theorem findLowestList_sound (R : Nat × List Nat × Nat → Prop) :
    ∀ (cs : List TopologyNode) (n : Int) (lvl idx : Nat)
      (best : Option (Nat × List Nat × Nat)),
    (∀ x, best = some x → R x) →
    (∀ j c, cs.get? j = some c → ∀ p ln, findLowest c n lvl = some (p, ln) → R (idx + j, p, ln)) →
    ∀ x, findLowestList cs n lvl idx best = some x → R x := by
  intro cs
  induction cs with
  | nil =>
    intro n lvl idx best hbest _ x hx
    exact hbest x hx
  | cons c cs ih =>
    intro n lvl idx best hbest hchild x hx
    simp only [findLowestList] at hx
    refine ih n lvl (idx + 1)
      (match findLowest c n lvl with
        | some (p, ln) => if bestNum best < ln then some (idx, p, ln) else best
        | none => best) ?_ ?_ x hx
    · intro y hy
      cases hf : findLowest c n lvl with
      | none =>
        rw [hf] at hy
        exact hbest y hy
      | some pr =>
        obtain ⟨p, ln⟩ := pr
        rw [hf] at hy
        dsimp only at hy
        by_cases hlt : bestNum best < ln
        · rw [if_pos hlt] at hy
          cases hy
          have := hchild 0 c rfl p ln hf
          simpa using this
        · rw [if_neg hlt] at hy
          exact hbest y hy
    · intro j d hd p ln hf
      have := hchild (j + 1) d (by simpa using hd) p ln hf
      have harith : idx + (j + 1) = idx + 1 + j := by omega
      rw [harith] at this
      exact this

theorem findLowest_sound :
    ∀ t (n : Int) (lvl : Nat) p ln, findLowest t n lvl = some (p, ln) →
    ∃ sub, getNode t p = some sub ∧ n ≤ sub.avail := by
  intro t
  induction t using tree_ind with
  | h ty v a cs ih =>
    intro n lvl p ln hf
    simp only [findLowest] at hf
    by_cases ha : a < n
    · rw [if_pos ha] at hf
      exact absurd hf (by simp)
    · rw [if_neg ha] at hf
      cases hlist : findLowestList cs n (lvl + 1) 0 none with
      | none =>
        rw [hlist] at hf
        simp only [Option.some.injEq, Prod.mk.injEq] at hf
        refine ⟨.node ty v a cs, ?_, ?_⟩
        · rw [← hf.1]
          rfl
        · simp only [avail]
          omega
      | some pr =>
        obtain ⟨i, q, ln2⟩ := pr
        rw [hlist] at hf
        simp only [Option.some.injEq, Prod.mk.injEq] at hf
        obtain ⟨hp, hln⟩ := hf
        have := findLowestList_sound
          (fun x => ∃ sub, getNode (.node ty v a cs) (x.1 :: x.2.1) = some sub ∧ n ≤ sub.avail)
          cs n (lvl + 1) 0 none (by simp) ?_ (i, q, ln2) hlist
        · rw [← hp]
          simpa using this
        · intro j c hj q2 ln3 hfc
          obtain ⟨sub, hget, hle⟩ := ih c (List.get?_mem hj) n (lvl + 1) q2 ln3 hfc
          refine ⟨sub, ?_, hle⟩
          simp only [getNode, children, Nat.zero_add, hj]
          exact hget

/-! ### `Take` preserves well-formedness -/

theorem takeAtPath_success :
    ∀ (p : List Nat) t sub (n : Int), wfB t = true → getNode t p = some sub →
    1 ≤ n → n ≤ sub.avail →
    ∃ t2 ls, takeAtPath t p n = (t2, ls, false) ∧ wfB t2 = true ∧
      t2.avail = t.avail - n := by
  intro p
  induction p with
  | nil =>
    intro t sub n hwf hget h1 h2
    simp only [getNode, Option.some.injEq] at hget
    subst hget
    obtain ⟨t2, ls, heq, hw2, ha2, _⟩ := takeLeaves_success t hwf n h1 h2
    exact ⟨t2, ls, by simpa [takeAtPath] using heq, hw2, ha2⟩
  | cons i p ih =>
    intro t sub n hwf hget h1 h2
    cases t with
    | node ty v a cs =>
      simp only [getNode, children] at hget
      cases hcg : cs.get? i with
      | none =>
        rw [hcg] at hget
        exact absurd hget (by simp)
      | some c =>
        rw [hcg] at hget
        have hne : cs ≠ [] := by
          intro h
          subst h
          simp at hcg
        obtain ⟨hsum, hlist⟩ := (wfB_node_iff ty v a cs hne).1 hwf
        have hwc : wfB c = true := (wfListB_iff cs).1 hlist c (List.get?_mem hcg)
        obtain ⟨c2, ls, heqc, hwc2, hac2⟩ := ih c sub n hwc hget h1 h2
        have hcg2 : cs[i]? = some c := by
          rw [← List.get?_eq_getElem?]
          exact hcg
        refine ⟨.node ty v (a - n) (listModify (fun _ => c2) i cs), ls, ?_, ?_, ?_⟩
        · simp [takeAtPath, hcg2, heqc]
        · have hlen : (listModify (fun _ => c2) i cs).length = cs.length :=
            listModify_length _ _ _
          have hne2 : listModify (fun _ => c2) i cs ≠ [] := by
            intro h
            rw [h] at hlen
            exact hne (List.length_eq_zero.1 hlen.symm)
          rw [wfB_node_iff _ _ _ _ hne2]
          constructor
          · rw [sumAvail_modify (fun _ => c2) hcg]
            omega
          · exact wfListB_modify _ hlist (fun d hd => by
              rw [hcg] at hd
              cases hd
              exact hwc2)
        · simp [avail]

/-- `NumaTopology.Take` with `n ≥ 1` preserves the topology invariant. -/
theorem numaTake_wf (t : TopologyNode) (n : Int) (hwf : wfB t = true) (h1 : 1 ≤ n) :
    wfB (numaTake t n).1 = true := by
  unfold numaTake
  cases hf : findLowest t n 0 with
  | none => exact hwf
  | some pr =>
    obtain ⟨p, ln⟩ := pr
    obtain ⟨sub, hget, hle⟩ := findLowest_sound t n 0 p ln hf
    obtain ⟨t2, ls, heq, hw2, _⟩ :=
      takeAtPath_success p t sub n hwf hget h1 hle
    dsimp only
    rw [heq]
    exact hw2

/-! ### `Return` preserves well-formedness -/

theorem findCpuPathList_sound :
    ∀ (cs : List TopologyNode) (cpu : Int) (idx : Nat) (q : List Nat),
    findCpuPathList cs cpu idx = some q →
    ∃ j c p, q = (idx + j) :: p ∧ cs.get? j = some c ∧ findCpuPath c cpu = some p := by
  intro cs
  induction cs with
  | nil => intro cpu idx q h; simp [findCpuPathList] at h
  | cons c cs ih =>
    intro cpu idx q h
    simp only [findCpuPathList] at h
    cases hf : findCpuPath c cpu with
    | some p =>
      rw [hf] at h
      simp only [Option.some.injEq] at h
      exact ⟨0, c, p, by simp [← h], rfl, hf⟩
    | none =>
      rw [hf] at h
      obtain ⟨j, d, p, hq, hd, hfd⟩ := ih cpu (idx + 1) q h
      refine ⟨j + 1, d, p, ?_, by simpa using hd, hfd⟩
      rw [hq]
      have : idx + 1 + j = idx + (j + 1) := by omega
      rw [this]

theorem findCpuPath_sound :
    ∀ t (cpu : Int) p, findCpuPath t cpu = some p →
    ∃ lf, getNode t p = some lf ∧ lf.children = [] ∧ lf.value = cpu := by
  intro t
  induction t using tree_ind with
  | h ty v a cs ih =>
    intro cpu p hf
    simp only [findCpuPath] at hf
    by_cases hleaf : cs.isEmpty = true ∧ v = cpu
    · have : (cs.isEmpty && decide (v = cpu)) = true := by
        simp [hleaf.1, hleaf.2]
      rw [if_pos this] at hf
      simp only [Option.some.injEq] at hf
      subst hf
      refine ⟨.node ty v a cs, rfl, ?_, hleaf.2⟩
      simpa [children, List.isEmpty_iff] using hleaf.1
    · have : ¬ (cs.isEmpty && decide (v = cpu)) = true := by
        intro hcontra
        simp only [Bool.and_eq_true, decide_eq_true_eq] at hcontra
        exact hleaf hcontra
      rw [if_neg this] at hf
      obtain ⟨j, c, q, hq, hj, hfc⟩ := findCpuPathList_sound cs cpu 0 p hf
      obtain ⟨lf, hget, hlf, hval⟩ := ih c (List.get?_mem hj) cpu q hfc
      refine ⟨lf, ?_, hlf, hval⟩
      rw [hq]
      simp only [getNode, children, Nat.zero_add, hj]
      exact hget

theorem incPath_wf :
    ∀ (p : List Nat) t lf, wfB t = true → getNode t p = some lf →
    lf.children = [] → lf.avail = 0 →
    wfB (incPath t p) = true ∧ (incPath t p).avail = t.avail + 1 := by
  intro p
  induction p with
  | nil =>
    intro t lf hwf hget hlf ha
    simp only [getNode, Option.some.injEq] at hget
    subst hget
    cases t with
    | node ty v a cs =>
      simp only [children] at hlf
      subst hlf
      simp only [avail] at ha
      subst ha
      constructor
      · simp [incPath, wfB_leaf_iff]
      · simp [incPath, avail]
  | cons i p ih =>
    intro t lf hwf hget hlf ha
    cases t with
    | node ty v a cs =>
      simp only [getNode, children] at hget
      cases hcg : cs.get? i with
      | none =>
        rw [hcg] at hget
        exact absurd hget (by simp)
      | some c =>
        rw [hcg] at hget
        have hne : cs ≠ [] := by
          intro h
          subst h
          simp at hcg
        obtain ⟨hsum, hlist⟩ := (wfB_node_iff ty v a cs hne).1 hwf
        have hwc : wfB c = true := (wfListB_iff cs).1 hlist c (List.get?_mem hcg)
        obtain ⟨hwc2, hac2⟩ := ih c lf hwc hget hlf ha
        constructor
        · have hlen : (listModify (fun d => incPath d p) i cs).length = cs.length :=
            listModify_length _ _ _
          have hne2 : listModify (fun d => incPath d p) i cs ≠ [] := by
            intro h
            rw [h] at hlen
            exact hne (List.length_eq_zero.1 hlen.symm)
          simp only [incPath]
          rw [wfB_node_iff _ _ _ _ hne2]
          constructor
          · rw [sumAvail_modify (fun d => incPath d p) hcg]
            omega
          · exact wfListB_modify _ hlist (fun d hd => by
              rw [hcg] at hd
              cases hd
              exact hwc2)
        · simp [incPath, avail]

/-- `NumaTopology.Return` preserves the topology invariant. -/
theorem numaReturn_wf (t : TopologyNode) (cpu : Int) (hwf : wfB t = true) :
    wfB (numaReturn t cpu).1 = true := by
  unfold numaReturn
  cases hf : findCpuPath t cpu with
  | none => exact hwf
  | some p =>
    obtain ⟨lf, hget, hlf, hval⟩ := findCpuPath_sound t cpu p hf
    dsimp only
    by_cases ha : availAt t p = 0
    · rw [if_pos ha]
      have ha0 : lf.avail = 0 := by
        simp only [availAt, hget] at ha
        exact ha
      exact (incPath_wf p t lf hwf hget hlf ha0).1
    · rw [if_neg ha]
      exact hwf

/-! ### Invariant I2 and operation sequences -/

theorem i2ListB_iff (cs : List TopologyNode) :
    i2ListB cs = true ↔ ∀ c ∈ cs, i2B c = true := by
  induction cs with
  | nil => simp [i2ListB]
  | cons c cs ih => simp [i2ListB, ih]

/-- The documented invariant implies the claim's sum equation I2. -/
theorem wfB_implies_i2B : ∀ t, wfB t = true → i2B t = true := by
  intro t
  induction t using tree_ind with
  | h ty v a cs ih =>
    intro hwf
    cases hcs : cs with
    | nil =>
      subst hcs
      simp [i2B, i2ListB]
    | cons c0 cs0 =>
      subst hcs
      obtain ⟨hsum, hlist⟩ := (wfB_node_iff ty v a _ (by simp)).1 hwf
      simp only [i2B, Bool.and_eq_true, Bool.or_eq_true, beq_iff_eq]
      refine ⟨Or.inr hsum, ?_⟩
      rw [i2ListB_iff]
      intro c hc
      exact ih c hc ((wfListB_iff _).1 hlist c hc)

/-- An operation on the topology: `Take(n)` or `Return(cpu)`. -/
inductive TopoOp where
  | take (n : Int)
  | ret (cpu : Int)
deriving DecidableEq, Repr

/-- A `Take` argument of at least one cpu (`Return` is unrestricted). -/
def opAtLeastOne : TopoOp → Bool
  | .take n => 1 ≤ n
  | .ret _ => true

def applyOp (t : TopologyNode) : TopoOp → TopologyNode
  | .take n => (numaTake t n).1
  | .ret cpu => (numaReturn t cpu).1

def applyOps (t : TopologyNode) : List TopoOp → TopologyNode
  | [] => t
  | op :: ops => applyOps (applyOp t op) ops

theorem wf_applyOps (ops : List TopoOp) :
    ∀ t, wfB t = true → (∀ op ∈ ops, opAtLeastOne op = true) →
    wfB (applyOps t ops) = true := by
  induction ops with
  | nil => intro t hwf _; exact hwf
  | cons op ops ih =>
    intro t hwf hops
    have hstep : wfB (applyOp t op) = true := by
      cases op with
      | take n =>
        have h1 : (1 : Int) ≤ n := by
          have := hops (.take n) (by simp)
          simpa [opAtLeastOne, decide_eq_true_eq] using this
        exact numaTake_wf t n hwf h1
      | ret cpu => exact numaReturn_wf t cpu hwf
    exact ih (applyOp t op) hstep (fun o ho => hops o (by simp [ho]))

/-- A freshly built flat two-cpu topology (cpus 0 and 1, all other levels
equal, so only the Cpu level is kept). -/
def flatTopo2 : TopologyNode := cpuInfoToTopology [⟨0, 0, 0, 0, 0⟩, ⟨1, 0, 0, 0, 0⟩]

/-! ### `Return` is idempotent: auxiliary invariance lemmas -/

theorem findCpuPathList_modify (cpu : Int) (f : TopologyNode → TopologyNode)
    (hf : ∀ c, findCpuPath (f c) cpu = findCpuPath c cpu) :
    ∀ (cs : List TopologyNode) (i idx : Nat),
    findCpuPathList (listModify f i cs) cpu idx = findCpuPathList cs cpu idx := by
  intro cs
  induction cs with
  | nil => intro i idx; cases i <;> rfl
  | cons c cs ih =>
    intro i idx
    cases i with
    | zero =>
      simp only [listModify, findCpuPathList, hf c]
    | succ n =>
      simp only [listModify, findCpuPathList, ih n]

theorem findCpuPath_incPath (cpu : Int) :
    ∀ (q : List Nat) (t : TopologyNode),
    findCpuPath (incPath t q) cpu = findCpuPath t cpu := by
  intro q
  induction q with
  | nil =>
    intro t
    cases t with
    | node ty v a cs => simp only [incPath, findCpuPath]
  | cons i p ih =>
    intro t
    cases t with
    | node ty v a cs =>
      simp only [incPath, findCpuPath]
      have hemp : (listModify (fun c => incPath c p) i cs).isEmpty = cs.isEmpty := by
        cases cs with
        | nil => cases i <;> rfl
        | cons x xs => cases i <;> rfl
      rw [hemp, findCpuPathList_modify cpu _ (fun c => ih c)]

theorem availAt_incPath :
    ∀ (p : List Nat) t lf, getNode t p = some lf →
    availAt (incPath t p) p = lf.avail + 1 := by
  intro p
  induction p with
  | nil =>
    intro t lf hget
    simp only [getNode, Option.some.injEq] at hget
    subst hget
    cases t with
    | node ty v a cs => simp [incPath, availAt, getNode, avail]
  | cons i p ih =>
    intro t lf hget
    cases t with
    | node ty v a cs =>
      simp only [getNode, children] at hget
      cases hcg : cs.get? i with
      | none =>
        rw [hcg] at hget
        exact absurd hget (by simp)
      | some c =>
        rw [hcg] at hget
        have hmod := listModify_get?_self (fun d => incPath d p) hcg
        have hres := ih c lf hget
        simp only [incPath, availAt, getNode, children, hmod]
        simpa [availAt] using hres

/-! ## Claims C3, C4, C8: topology take / return -/

/-- C3 (code-bug evidence): the spec says `Take(0)` succeeds with the empty
list and leaves every `num_available` unchanged.  On the freshly built
two-cpu topology `flatTopo2` the code instead descends to the first leaf,
returns its cpu id, and zeroes that leaf's `num_available` (1 → 0) without
touching its ancestors (the root keeps `num_available = 2`), breaking the
documented invariant. -/
theorem claim_C3_take_zero_code_bug :
    (numaTake flatTopo2 0).2 = some [0] ∧
    availAt flatTopo2 [0] = 1 ∧
    availAt (numaTake flatTopo2 0).1 [0] = 0 ∧
    avail (numaTake flatTopo2 0).1 = 2 ∧
    wfB (numaTake flatTopo2 0).1 = false := by decide

/-- C4 (counterexample): the claim quantifies over "any sequence of take(n)
and return(cpu)"; the single operation `take 0` on a freshly built well-formed
two-cpu topology already breaks invariant I2. -/
theorem claim_C4_counterexample :
    wfB flatTopo2 = true ∧ i2B flatTopo2 = true ∧
    i2B (applyOps flatTopo2 [TopoOp.take 0]) = false := by decide

/-- C4 (amended): starting from any topology satisfying the documented
invariant (leaves carry 0 or 1 and every inner node the sum of its children —
true of every freshly built topology), every sequence of `take(n)` with
`n ≥ 1` and `return(cpu)` operations preserves I2: each non-leaf node's
`num_available` equals the sum of its children's. -/
theorem claim_C4_amended (t : TopologyNode) (ops : List TopoOp)
    (hwf : wfB t = true) (hops : ∀ op ∈ ops, opAtLeastOne op = true) :
    i2B (applyOps t ops) = true :=
  wfB_implies_i2B _ (wf_applyOps ops t hwf hops)

/-- Witness for C4: the freshly built 8-cpu NUMA topology of the repository's
tests, with a concrete mixed take / return history. -/
theorem claim_C4_amended_witness :
    i2B (applyOps testNumaTree
      [TopoOp.take 2, TopoOp.ret 1, TopoOp.take 3, TopoOp.ret 3, TopoOp.take 1]) = true :=
  claim_C4_amended testNumaTree _ (by decide) (by decide)

/-- C8 (confirmed): `Return(cpu)` increments `num_available` along the whole
path from the leaf to the root exactly when the leaf was taken
(`num_available = 0`); otherwise it changes nothing; and `Return` composed
with itself equals a single `Return`. -/
theorem claim_C8_return_idempotent (t : TopologyNode) (cpu : Int) :
    (∀ p, findCpuPath t cpu = some p → availAt t p = 0 →
      numaReturn t cpu = (incPath t p, none)) ∧
    (∀ p, findCpuPath t cpu = some p → availAt t p ≠ 0 →
      numaReturn t cpu = (t, none)) ∧
    (numaReturn (numaReturn t cpu).1 cpu).1 = (numaReturn t cpu).1 := by
  refine ⟨?_, ?_, ?_⟩
  · intro p hp ha
    simp [numaReturn, hp, ha]
  · intro p hp ha
    simp [numaReturn, hp, ha]
  · cases hf : findCpuPath t cpu with
    | none => simp [numaReturn, hf]
    | some p =>
      by_cases ha : availAt t p = 0
      · have h1 : numaReturn t cpu = (incPath t p, none) := by
          simp [numaReturn, hf, ha]
        rw [h1]
        obtain ⟨lf, hget, hlf, hval⟩ := findCpuPath_sound t cpu p hf
        have hf2 : findCpuPath (incPath t p) cpu = some p := by
          rw [findCpuPath_incPath]
          exact hf
        have hlf0 : lf.avail = 0 := by
          simpa [availAt, hget] using ha
        have ha2ne : availAt (incPath t p) p ≠ 0 := by
          rw [availAt_incPath p t lf hget, hlf0]
          simp
        simp [numaReturn, hf2, ha2ne]
      · have h1 : numaReturn t cpu = (t, none) := by
          simp [numaReturn, hf, ha]
        simp [h1]

/-- The test topology after one successful `Take(1)` (cpu 1 is taken). -/
def topoAfterTakeOne : TopologyNode := (numaTake testNumaTree 1).1

/-- Witness for C8: returning taken cpu 1 increments its whole path, and a
second `Return` of the same cpu is a no-op. -/
theorem claim_C8_witness :
    numaReturn topoAfterTakeOne 1 = (incPath topoAfterTakeOne [0, 0, 0], none) ∧
    (numaReturn (numaReturn topoAfterTakeOne 1).1 1).1 = (numaReturn topoAfterTakeOne 1).1 :=
  ⟨(claim_C8_return_idempotent topoAfterTakeOne 1).1 [0, 0, 0] (by decide) (by decide),
   (claim_C8_return_idempotent topoAfterTakeOne 1).2.2⟩

/-! ## Request conversion and QoS (`part_002:462-481`, claim C5) -/

/-- `ctlplaneapi.ResourceInfo` in the version the daemon code compares with
`==` and `<`: all four fields are `int32`, embedded as `Int`. -/
structure ResourceInfoI where
  requestedCpus : Int
  limitCpus : Int
  requestedMemory : Int
  limitMemory : Int
deriving DecidableEq, Repr

/-- `ctlplaneapi.ContainerInfo`. -/
structure ContainerInfoReq where
  containerId : String
  containerName : String
  resources : ResourceInfoI
deriving DecidableEq, Repr

/-- `cpudaemon.containerFromRequest`. -/
def containerFromRequest (req : ContainerInfoReq) (podID : String) : Container :=
  let qs :=
    if req.resources.requestedCpus = req.resources.limitCpus ∧
        req.resources.requestedMemory = req.resources.limitMemory ∧
        0 < req.resources.requestedCpus then
      QoS.Guaranteed
    else if req.resources.requestedCpus < req.resources.limitCpus ∨
        req.resources.requestedMemory < req.resources.limitMemory then
      QoS.Burstable
    else QoS.BestEffort
  { cid := req.containerId
    pid := podID
    name := req.containerName
    cpus := req.resources.requestedCpus
    qs := qs }

/-- The QoS derivation exactly as claim C5 words it: Guaranteed iff requested
equals limit and both are positive for both CPU and memory; Burstable iff
requested is strictly below limit for CPU or memory; otherwise BestEffort. -/
def claimQoS (r : ResourceInfoI) : QoS :=
  if r.requestedCpus = r.limitCpus ∧ r.requestedMemory = r.limitMemory ∧
      0 < r.requestedCpus ∧ 0 < r.requestedMemory then
    QoS.Guaranteed
  else if r.requestedCpus < r.limitCpus ∨ r.requestedMemory < r.limitMemory then
    QoS.Burstable
  else QoS.BestEffort

/-- C5 (counterexample): a container with cpu request = limit = 1 and memory
request = limit = 0 is classified Guaranteed by the code, while the claim's
derivation (which also demands positive memory) gives BestEffort. -/
theorem claim_C5_counterexample :
    (containerFromRequest ⟨"c", "n", ⟨1, 1, 0, 0⟩⟩ "p").qs = QoS.Guaranteed ∧
    claimQoS ⟨1, 1, 0, 0⟩ = QoS.BestEffort := by
  decide

/-- C5 (amended): QoS is derived exactly as: Guaranteed iff requested = limit
for both CPU and memory and requested CPU > 0 (positive memory is not
required); Burstable iff requested < limit for CPU or for memory; otherwise
BestEffort. -/
theorem claim_C5_amended (req : ContainerInfoReq) (podID : String) :
    ((containerFromRequest req podID).qs = QoS.Guaranteed ↔
      (req.resources.requestedCpus = req.resources.limitCpus ∧
        req.resources.requestedMemory = req.resources.limitMemory ∧
        0 < req.resources.requestedCpus)) ∧
    ((containerFromRequest req podID).qs = QoS.Burstable ↔
      (req.resources.requestedCpus < req.resources.limitCpus ∨
        req.resources.requestedMemory < req.resources.limitMemory)) ∧
    ((containerFromRequest req podID).qs = QoS.BestEffort ↔
      (¬ (req.resources.requestedCpus = req.resources.limitCpus ∧
          req.resources.requestedMemory = req.resources.limitMemory ∧
          0 < req.resources.requestedCpus) ∧
        ¬ (req.resources.requestedCpus < req.resources.limitCpus ∨
          req.resources.requestedMemory < req.resources.limitMemory))) := by
  obtain ⟨cid, cname, rc, lc, rm, lm⟩ := req
  simp only [containerFromRequest]
  by_cases hA : rc = lc ∧ rm = lm ∧ 0 < rc
  · have hnB : ¬ (rc < lc ∨ rm < lm) := by
      obtain ⟨h1, h2, _⟩ := hA
      omega
    rw [if_pos hA]
    refine ⟨by simp [hA]; omega, by simp [hnB], by simp [hA]; omega⟩
  · rw [if_neg hA]
    by_cases hB : rc < lc ∨ rm < lm
    · rw [if_pos hB]
      exact ⟨by simp [hA], by simp [hB], by simp [hB]⟩
    · rw [if_neg hB]
      exact ⟨by simp [hA], by simp [hB], by simp [hA, hB]⟩

/-- Witness for C5 (amended): a Guaranteed container with zero memory. -/
theorem claim_C5_amended_witness :
    (containerFromRequest ⟨"c", "n", ⟨2, 2, 0, 0⟩⟩ "p").qs = QoS.Guaranteed :=
  ((claim_C5_amended ⟨"c", "n", ⟨2, 2, 0, 0⟩⟩ "p").1).2 (by decide)

/-! ## Daemon state (`daemon_state.go`) and `LoadState` (claim C10) -/

/-- `cpudaemon.DaemonState`.  `cpuInformation` is the `NumaTopology`'s
`CpuInformation` map restricted to the NUMA node id, the only field the
allocators read (for the `mems` string). -/
structure DaemonState where
  availableCPUs : List CPUBucket
  allocated : List (String × List CPUBucket)
  pods : List (String × PodMetadata)
  topology : TopologyNode
  cpuInformation : List (Int × Int)
  cgroupPath : String
  statePath : String

/-- Errors `LoadState` can surface. -/
inductive LoadErr where
  /-- `utils.ErrFileIsSymlink`. -/
  | symlink
  /-- `os.ReadFile` failure. -/
  | readFail
  /-- `json.Unmarshal` failure. -/
  | parseFail
deriving DecidableEq, Repr

/-- What the filesystem presents at `StatePath` during one `LoadState` call:
whether the path is a symbolic link, and the outcome of read + unmarshal
(`none` = read error, `some none` = unmarshal error, `some (some d)` = the
state decoded from the file, including whatever `StatePath` the file holds). -/
structure FsView where
  isSymlink : Bool
  readResult : Option (Option DaemonState)

/-- `DaemonState.LoadState` (`daemon_state.go:89-101`).  `json.Unmarshal` may
leave the receiver partially overwritten when it fails; `junk` stands for
that partially-written value.  In every exit path the code restores
`d.StatePath = statePath` (the unmarshal-error path included, because the
assignment precedes the `return err`). -/
def loadState (s junk : DaemonState) (fs : FsView) : DaemonState × Option LoadErr :=
  let statePath := s.statePath
  if fs.isSymlink then (s, some .symlink)
  else
    match fs.readResult with
    | none => (s, some .readFail)
    | some none => ({ junk with statePath := statePath }, some .parseFail)
    | some (some d) => ({ d with statePath := statePath }, none)

/-- C10 (confirmed): `LoadState` never changes `StatePath`: whatever the call
outcome — symlink refusal, read error, unmarshal error (with arbitrary
partial overwrite `junk`) or a successful load of a file that carries a
different `StatePath` — the resulting state's `StatePath` equals its value
before the call. -/
theorem claim_C10_loadState_preserves_statePath (s junk : DaemonState) (fs : FsView) :
    (loadState s junk fs).1.statePath = s.statePath := by
  unfold loadState
  by_cases h : fs.isSymlink
  · simp [h]
  · rcases fs.readResult with _ | (_ | d) <;> simp [h]

/-! ## Request conversion sums (`pkg/agent/resources.go:68-113`, claim C9) -/

/-- `math.MaxInt32`. -/
def maxInt32 : Int := 2147483647

/-- Two's-complement wrap of an integer into the `int32` range. -/
def wrap32 (x : Int) : Int := (x + 2147483648) % 4294967296 - 2147483648

/-- Go `int32` addition (wrapping). -/
def addInt32 (a b : Int) : Int := wrap32 (a + b)

/-- The four `CountingOverflow` messages of `createPodResources`
("cpus request", "cpus limit", "mem request", "mem limit"); every one is
`ErrCountingOverflow`. -/
inductive CountingOverflowKind where
  | cpusRequest
  | cpusLimit
  | memRequest
  | memLimit
deriving DecidableEq, Repr

/-- What `getContainerResources` guarantees about every per-container value
it returns (`representable`, `0 ≤ v`, `v ≤ math.MaxInt32`). -/
def resourceInRange (r : ResourceInfoI) : Prop :=
  0 ≤ r.requestedCpus ∧ r.requestedCpus ≤ maxInt32 ∧
  0 ≤ r.limitCpus ∧ r.limitCpus ≤ maxInt32 ∧
  0 ≤ r.requestedMemory ∧ r.requestedMemory ≤ maxInt32 ∧
  0 ≤ r.limitMemory ∧ r.limitMemory ≤ maxInt32

instance (r : ResourceInfoI) : Decidable (resourceInRange r) := by
  unfold resourceInRange
  infer_instance

/-- `agent.createPodResources` (`resources.go:68-113`): the per-container
loop summing the four resource fields into `int32` accumulators, returning
`CountingOverflow` as soon as an accumulator wraps below zero.  The
per-container `ContainerInfo` construction is identity on the resource
values and is elided. -/
def createPodResources : List ResourceInfoI → Int → Int → Int → Int →
    Except CountingOverflowKind (Int × Int × Int × Int)
  | [], rc, lc, rm, lm => .ok (rc, lc, rm, lm)
  | r :: rest, rc, lc, rm, lm =>
    let rc2 := addInt32 rc r.requestedCpus
    if rc2 < 0 then .error .cpusRequest
    else
      let lc2 := addInt32 lc r.limitCpus
      if lc2 < 0 then .error .cpusLimit
      else
        let rm2 := addInt32 rm r.requestedMemory
        if rm2 < 0 then .error .memRequest
        else
          let lm2 := addInt32 lm r.limitMemory
          if lm2 < 0 then .error .memLimit
          else createPodResources rest rc2 lc2 rm2 lm2

/-- The conversion entry point: all four accumulators start at zero. -/
def createPodResourcesTop (l : List ResourceInfoI) :
    Except CountingOverflowKind (Int × Int × Int × Int) :=
  createPodResources l 0 0 0 0

def sumReqCpus (l : List ResourceInfoI) : Int := (l.map (fun r => r.requestedCpus)).sum
def sumLimCpus (l : List ResourceInfoI) : Int := (l.map (fun r => r.limitCpus)).sum
def sumReqMem (l : List ResourceInfoI) : Int := (l.map (fun r => r.requestedMemory)).sum
def sumLimMem (l : List ResourceInfoI) : Int := (l.map (fun r => r.limitMemory)).sum

theorem addInt32_small (a b : Int) (hab0 : 0 ≤ a + b) (hab : a + b ≤ maxInt32) :
    addInt32 a b = a + b := by
  unfold addInt32 wrap32
  unfold maxInt32 at hab
  omega

theorem addInt32_big_neg (a b : Int) (ha : a ≤ maxInt32) (hb : b ≤ maxInt32)
    (hab : maxInt32 < a + b) : addInt32 a b < 0 := by
  unfold addInt32 wrap32
  unfold maxInt32 at ha hb hab
  omega

theorem sums_nonneg (l : List ResourceInfoI) (hv : ∀ r ∈ l, resourceInRange r) :
    0 ≤ sumReqCpus l ∧ 0 ≤ sumLimCpus l ∧ 0 ≤ sumReqMem l ∧ 0 ≤ sumLimMem l := by
  refine ⟨?_, ?_, ?_, ?_⟩ <;>
    [unfold sumReqCpus; unfold sumLimCpus; unfold sumReqMem; unfold sumLimMem] <;>
    · apply List.sum_nonneg
      intro x hx
      obtain ⟨r, hr, rfl⟩ := List.mem_map.1 hx
      have := hv r hr
      unfold resourceInRange at this
      omega

theorem createPodResources_spec :
    ∀ (l : List ResourceInfoI) (rc lc rm lm : Int),
    (∀ r ∈ l, resourceInRange r) →
    0 ≤ rc → rc ≤ maxInt32 → 0 ≤ lc → lc ≤ maxInt32 →
    0 ≤ rm → rm ≤ maxInt32 → 0 ≤ lm → lm ≤ maxInt32 →
    ((rc + sumReqCpus l ≤ maxInt32 ∧ lc + sumLimCpus l ≤ maxInt32 ∧
        rm + sumReqMem l ≤ maxInt32 ∧ lm + sumLimMem l ≤ maxInt32 →
      createPodResources l rc lc rm lm =
        .ok (rc + sumReqCpus l, lc + sumLimCpus l, rm + sumReqMem l, lm + sumLimMem l)) ∧
      (maxInt32 < rc + sumReqCpus l ∨ maxInt32 < lc + sumLimCpus l ∨
          maxInt32 < rm + sumReqMem l ∨ maxInt32 < lm + sumLimMem l →
        ∃ k, createPodResources l rc lc rm lm = .error k)) := by
  intro l
  induction l with
  | nil =>
    intro rc lc rm lm _ h1 h2 h3 h4 h5 h6 h7 h8
    constructor
    · intro _
      simp [createPodResources, sumReqCpus, sumLimCpus, sumReqMem, sumLimMem]
    · intro hover
      simp only [sumReqCpus, sumLimCpus, sumReqMem, sumLimMem, List.map_nil,
        List.sum_nil, Int.add_zero] at hover
      omega
  | cons r rest ih =>
    intro rc lc rm lm hv h1 h2 h3 h4 h5 h6 h7 h8
    have hr : resourceInRange r := hv r (by simp)
    obtain ⟨hr1, hr2, hr3, hr4, hr5, hr6, hr7, hr8⟩ := hr
    have hvrest : ∀ x ∈ rest, resourceInRange x := fun x hx => hv x (by simp [hx])
    obtain ⟨hs1, hs2, hs3, hs4⟩ := sums_nonneg rest hvrest
    have hsum1 : sumReqCpus (r :: rest) = r.requestedCpus + sumReqCpus rest := by
      simp [sumReqCpus]
    have hsum2 : sumLimCpus (r :: rest) = r.limitCpus + sumLimCpus rest := by
      simp [sumLimCpus]
    have hsum3 : sumReqMem (r :: rest) = r.requestedMemory + sumReqMem rest := by
      simp [sumReqMem]
    have hsum4 : sumLimMem (r :: rest) = r.limitMemory + sumLimMem rest := by
      simp [sumLimMem]
    by_cases hc1 : rc + r.requestedCpus ≤ maxInt32
    case neg =>
      -- first accumulator wraps: "cpus request"
      have hneg : addInt32 rc r.requestedCpus < 0 :=
        addInt32_big_neg rc r.requestedCpus h2 hr2 (by omega)
      constructor
      · intro hfit
        rw [hsum1] at hfit
        omega
      · intro _
        exact ⟨.cpusRequest, by simp [createPodResources, hneg]⟩
    case pos =>
    have he1 : addInt32 rc r.requestedCpus = rc + r.requestedCpus :=
      addInt32_small _ _ (by omega) hc1
    have hn1 : ¬ addInt32 rc r.requestedCpus < 0 := by omega
    by_cases hc2 : lc + r.limitCpus ≤ maxInt32
    case neg =>
      have hneg : addInt32 lc r.limitCpus < 0 :=
        addInt32_big_neg lc r.limitCpus h4 hr4 (by omega)
      constructor
      · intro hfit
        rw [hsum2] at hfit
        omega
      · intro _
        exact ⟨.cpusLimit, by simp [createPodResources, hn1, hneg]⟩
    case pos =>
    have he2 : addInt32 lc r.limitCpus = lc + r.limitCpus :=
      addInt32_small _ _ (by omega) hc2
    have hn2 : ¬ addInt32 lc r.limitCpus < 0 := by omega
    by_cases hc3 : rm + r.requestedMemory ≤ maxInt32
    case neg =>
      have hneg : addInt32 rm r.requestedMemory < 0 :=
        addInt32_big_neg rm r.requestedMemory h6 hr6 (by omega)
      constructor
      · intro hfit
        rw [hsum3] at hfit
        omega
      · intro _
        exact ⟨.memRequest, by simp [createPodResources, hn1, hn2, hneg]⟩
    case pos =>
    have he3 : addInt32 rm r.requestedMemory = rm + r.requestedMemory :=
      addInt32_small _ _ (by omega) hc3
    have hn3 : ¬ addInt32 rm r.requestedMemory < 0 := by omega
    by_cases hc4 : lm + r.limitMemory ≤ maxInt32
    case neg =>
      have hneg : addInt32 lm r.limitMemory < 0 :=
        addInt32_big_neg lm r.limitMemory h8 hr8 (by omega)
      constructor
      · intro hfit
        rw [hsum4] at hfit
        omega
      · intro _
        exact ⟨.memLimit, by simp [createPodResources, hn1, hn2, hn3, hneg]⟩
    case pos =>
    have he4 : addInt32 lm r.limitMemory = lm + r.limitMemory :=
      addInt32_small _ _ (by omega) hc4
    have hn4 : ¬ addInt32 lm r.limitMemory < 0 := by omega
    have hstep : createPodResources (r :: rest) rc lc rm lm =
        createPodResources rest (rc + r.requestedCpus) (lc + r.limitCpus)
          (rm + r.requestedMemory) (lm + r.limitMemory) := by
      simp only [createPodResources, he1, he2, he3, he4]
      rw [if_neg (by omega : ¬ rc + r.requestedCpus < 0),
        if_neg (by omega : ¬ lc + r.limitCpus < 0),
        if_neg (by omega : ¬ rm + r.requestedMemory < 0),
        if_neg (by omega : ¬ lm + r.limitMemory < 0)]
    obtain ⟨ihA, ihB⟩ := ih (rc + r.requestedCpus) (lc + r.limitCpus)
      (rm + r.requestedMemory) (lm + r.limitMemory) hvrest
      (by omega) hc1 (by omega) hc2 (by omega) hc3 (by omega) hc4
    constructor
    · intro hfit
      rw [hsum1, hsum2, hsum3, hsum4] at hfit
      rw [hstep, hsum1, hsum2, hsum3, hsum4]
      have := ihA (by constructor <;> [omega; constructor <;> [omega; constructor <;> omega]])
      rw [this]
      congr 1 <;> ring_nf
    · intro hover
      rw [hsum1, hsum2, hsum3, hsum4] at hover
      rw [hstep]
      exact ihB (by omega)

/-- C9 (confirmed): request conversion over containers whose individual
values passed `getContainerResources` (each in `[0, MaxInt32]`) returns a
`CountingOverflow` error (and no request) whenever any of the four true sums
exceeds `int32`, and otherwise produces exactly the four exact sums. -/
theorem claim_C9_counting_overflow (l : List ResourceInfoI)
    (hv : ∀ r ∈ l, resourceInRange r) :
    ((maxInt32 < sumReqCpus l ∨ maxInt32 < sumLimCpus l ∨
        maxInt32 < sumReqMem l ∨ maxInt32 < sumLimMem l) →
      ∃ k, createPodResourcesTop l = .error k) ∧
    ((sumReqCpus l ≤ maxInt32 ∧ sumLimCpus l ≤ maxInt32 ∧
        sumReqMem l ≤ maxInt32 ∧ sumLimMem l ≤ maxInt32) →
      createPodResourcesTop l = .ok (sumReqCpus l, sumLimCpus l, sumReqMem l, sumLimMem l)) := by
  obtain ⟨hA, hB⟩ := createPodResources_spec l 0 0 0 0 hv
    le_rfl (by unfold maxInt32; omega) le_rfl (by unfold maxInt32; omega)
    le_rfl (by unfold maxInt32; omega) le_rfl (by unfold maxInt32; omega)
  constructor
  · intro hover
    exact hB (by omega)
  · intro hfit
    have := hA (by omega)
    simpa [createPodResourcesTop] using this

/-- Witness for C9: two containers of 2000000000 requested cpus overflow and
error out; a small pod sums exactly. -/
theorem claim_C9_witness :
    (∃ k, createPodResourcesTop [⟨2000000000, 0, 0, 0⟩, ⟨2000000000, 0, 0, 0⟩] = .error k) ∧
    createPodResourcesTop [⟨1, 2, 3, 4⟩, ⟨10, 20, 30, 40⟩] = .ok (11, 22, 33, 44) :=
  ⟨(claim_C9_counting_overflow [⟨2000000000, 0, 0, 0⟩, ⟨2000000000, 0, 0, 0⟩]
      (by decide)).1 (by decide),
   (claim_C9_counting_overflow [⟨1, 2, 3, 4⟩, ⟨10, 20, 30, 40⟩]
      (by decide)).2 (by decide)⟩

/-! ## Default allocator (`daemon_allocators.go:114-143`, claim C6) -/

/-- The cgroup writer as seen by the allocators: given the container, the
cpuset string and the mems string it either succeeds (`none`) or fails with
an error.  The slice path computation and the actual filesystem write are
outside the allocation core. -/
def CgroupWriter : Type := Container → String → String → Option DaemonError

/-- A writer that always succeeds. -/
def wrAlwaysOk : CgroupWriter := fun _ _ _ => none

/-- The cpuset string `takeCpus` builds: `"s"` or `"s-e"`. -/
def cpuSetString (sCPU eCPU : Int) : String :=
  if sCPU = eCPU then toString sCPU else toString sCPU ++ "-" ++ toString eCPU

/-- The `for i, b := range s.AvailableCPUs` loop of
`DefaultAllocator.takeCpus`: find the first range with
`EndCPU - StartCPU + 1 - c.Cpus > 0`, cut its head, record the allocation and
write the cgroup. -/
def defaultTakeLoop (wr : CgroupWriter) (c : Container) (s : DaemonState) :
    List CPUBucket → Nat → DaemonState × Option DaemonError
  | [], _ => (s, some ⟨.CpusNotAvailable, .noAvailableCpus⟩)
  | b :: rest, i =>
    if 0 < b.endCPU - b.startCPU + 1 - c.cpus then
      let sCPU := b.startCPU
      let eCPU := b.startCPU + c.cpus - 1
      let s2 : DaemonState :=
        { s with
          availableCPUs :=
            listModify (fun bb => { bb with startCPU := eCPU + 1 }) i s.availableCPUs
          allocated := mapInsert s.allocated c.cid [⟨sCPU, eCPU⟩] }
      (s2, wr c (cpuSetString sCPU eCPU) "")
    else defaultTakeLoop wr c s rest (i + 1)

/-- `DefaultAllocator.takeCpus`. -/
def defaultTakeCpus (wr : CgroupWriter) (c : Container) (s : DaemonState) :
    DaemonState × Option DaemonError :=
  if c.qs ≠ QoS.Guaranteed then (s, none)
  else defaultTakeLoop wr c s s.availableCPUs 0

/-- First range (index and value) whose length is strictly greater than
`cpus`. -/
def firstFit (cpus : Int) : List CPUBucket → Option (Nat × CPUBucket)
  | [] => none
  | b :: rest =>
    if 0 < b.endCPU - b.startCPU + 1 - cpus then some (0, b)
    else (firstFit cpus rest).map (fun x => (x.1 + 1, x.2))

theorem defaultTakeLoop_none (wr : CgroupWriter) (c : Container) (s : DaemonState) :
    ∀ (l : List CPUBucket) (i : Nat), firstFit c.cpus l = none →
    defaultTakeLoop wr c s l i = (s, some ⟨.CpusNotAvailable, .noAvailableCpus⟩) := by
  intro l
  induction l with
  | nil => intro i _; rfl
  | cons b rest ih =>
    intro i hff
    simp only [firstFit] at hff
    by_cases hb : 0 < b.endCPU - b.startCPU + 1 - c.cpus
    · rw [if_pos hb] at hff
      exact absurd hff (by simp)
    · rw [if_neg hb] at hff
      have hrest : firstFit c.cpus rest = none := by
        cases h : firstFit c.cpus rest with
        | none => rfl
        | some x => rw [h] at hff; simp at hff
      simp only [defaultTakeLoop, if_neg hb]
      exact ih (i + 1) hrest

theorem defaultTakeLoop_some (wr : CgroupWriter) (c : Container) (s : DaemonState) :
    ∀ (l : List CPUBucket) (i j : Nat) (b : CPUBucket), firstFit c.cpus l = some (j, b) →
    defaultTakeLoop wr c s l i =
      ({ s with
          availableCPUs :=
            listModify (fun bb => { bb with startCPU := b.startCPU + c.cpus }) (i + j)
              s.availableCPUs
          allocated := mapInsert s.allocated c.cid [⟨b.startCPU, b.startCPU + c.cpus - 1⟩] },
        wr c (cpuSetString b.startCPU (b.startCPU + c.cpus - 1)) "") := by
  intro l
  induction l with
  | nil => intro i j b h; simp [firstFit] at h
  | cons b0 rest ih =>
    intro i j b hff
    simp only [firstFit] at hff
    by_cases hb : 0 < b0.endCPU - b0.startCPU + 1 - c.cpus
    · rw [if_pos hb] at hff
      simp only [Option.some.injEq, Prod.mk.injEq] at hff
      obtain ⟨hj, hbv⟩ := hff
      subst hbv
      simp only [defaultTakeLoop, if_pos hb, ← hj, Nat.add_zero]
      have harith : b0.startCPU + c.cpus - 1 + 1 = b0.startCPU + c.cpus := by ring
      rw [harith]
    · rw [if_neg hb] at hff
      cases hrest : firstFit c.cpus rest with
      | none => rw [hrest] at hff; simp at hff
      | some x =>
        obtain ⟨j0, bv⟩ := x
        rw [hrest] at hff
        simp only [Option.map_some', Option.some.injEq, Prod.mk.injEq] at hff
        obtain ⟨hj, hbv⟩ := hff
        subst hbv
        simp only [defaultTakeLoop, if_neg hb]
        rw [ih (i + 1) j0 bv hrest]
        have harith : i + 1 + j0 = i + j := by omega
        rw [harith]

/-- C6 (confirmed): the Default allocator's `takeCpus` on a Guaranteed
container cuts exactly `c.cpus` cpus from the head of the first available
range whose length is strictly greater than `c.cpus` (the range's start
advances by `c.cpus`, the taken cpus are recorded as the single bucket
`[start, start + c.cpus - 1]`, and the cgroup write for that bucket decides
the returned error); it fails with `CpusNotAvailable` when no range
satisfies the strict inequality; and for non-Guaranteed containers it is a
no-op returning success. -/
theorem claim_C6_default_take (wr : CgroupWriter) (c : Container) (s : DaemonState) :
    (c.qs ≠ QoS.Guaranteed → defaultTakeCpus wr c s = (s, none)) ∧
    (c.qs = QoS.Guaranteed →
      (∀ j b, firstFit c.cpus s.availableCPUs = some (j, b) →
        defaultTakeCpus wr c s =
          ({ s with
              availableCPUs :=
                listModify (fun bb => { bb with startCPU := b.startCPU + c.cpus }) j
                  s.availableCPUs
              allocated :=
                mapInsert s.allocated c.cid [⟨b.startCPU, b.startCPU + c.cpus - 1⟩] },
            wr c (cpuSetString b.startCPU (b.startCPU + c.cpus - 1)) "")) ∧
      (firstFit c.cpus s.availableCPUs = none →
        defaultTakeCpus wr c s = (s, some ⟨.CpusNotAvailable, .noAvailableCpus⟩))) := by
  constructor
  · intro hng
    simp [defaultTakeCpus, hng]
  · intro hg
    constructor
    · intro j b hff
      have := defaultTakeLoop_some wr c s s.availableCPUs 0 j b hff
      simpa [defaultTakeCpus, hg] using this
    · intro hff
      have := defaultTakeLoop_none wr c s s.availableCPUs 0 hff
      simpa [defaultTakeCpus, hg] using this

/-- A 128-cpu state for the Default allocator (scenario S1 of the spec). -/
def s128 : DaemonState :=
  { availableCPUs := [⟨0, 127⟩]
    allocated := []
    pods := []
    topology := flatTopo2
    cpuInformation := []
    cgroupPath := "/sys/fs/cgroup"
    statePath := "daemon.state" }

/-- Witness for C6: a Guaranteed container taking 10 cpus from `[0,127]`
receives `[0,9]` and the pool becomes `[10,127]`; with an empty pool the
call fails. -/
theorem claim_C6_witness :
    defaultTakeCpus wrAlwaysOk ⟨"cidG", "pod1", "g", 10, QoS.Guaranteed⟩ s128 =
      ({ s128 with
          availableCPUs := [⟨10, 127⟩]
          allocated := [("cidG", [⟨0, 9⟩])] }, none) ∧
    defaultTakeCpus wrAlwaysOk ⟨"cidG", "pod1", "g", 10, QoS.Guaranteed⟩
        { s128 with availableCPUs := [] } =
      ({ s128 with availableCPUs := [] },
        some ⟨.CpusNotAvailable, .noAvailableCpus⟩) := by
  constructor
  · have h := ((claim_C6_default_take wrAlwaysOk ⟨"cidG", "pod1", "g", 10, QoS.Guaranteed⟩
      s128).2 rfl).1 0 ⟨0, 127⟩ (by decide)
    simpa [s128, listModify, mapInsert, wrAlwaysOk] using h
  · have h := ((claim_C6_default_take wrAlwaysOk ⟨"cidG", "pod1", "g", 10, QoS.Guaranteed⟩
      { s128 with availableCPUs := [] }).2 rfl).2 (by decide)
    simpa using h

/-! ## CPU sets (`daemon_cpuset.go`)

Go's `CPUSet` is a `map[int]struct{}`; every reading operation
(`Sorted`, `ToBucketList`, `ToCpuString`) sorts the keys first, so the set is
embedded as its canonical strictly-sorted key list. -/

/-- Insert into a strictly sorted list (no duplicates): the canonical form of
`CPUSet.Add`. -/
def insSorted (x : Int) : List Int → List Int
  | [] => [x]
  | y :: ys =>
    if x < y then x :: y :: ys
    else if x = y then y :: ys
    else y :: insSorted x ys

/-- The cpus of one bucket: `for cpu := b.StartCPU; cpu <= b.EndCPU; cpu++`.
The loop runs `(EndCPU + 1 - StartCPU)` times; the fuel argument makes the
recursion structural. -/
def bucketCpusGo : Nat → Int → List Int
  | 0, _ => []
  | n + 1, s => s :: bucketCpusGo n (s + 1)

def bucketCpus (b : CPUBucket) : List Int :=
  bucketCpusGo (b.endCPU + 1 - b.startCPU).toNat b.startCPU

/-- `CPUSetFromBucketList`, canonically sorted. -/
def cpuSetFromBucketList (bs : List CPUBucket) : List Int :=
  bs.foldl (fun acc b => (bucketCpus b).foldl (fun a x => insSorted x a) acc) []

/-- `CPUSet.RemoveAll` (set difference). -/
def setRemoveAll (s other : List Int) : List Int :=
  s.filter (fun x => ¬ other.contains x)

/-- `CPUSet.Merge` (set union). -/
def setMerge (s other : List Int) : List Int :=
  other.foldl (fun a x => insSorted x a) s

/-- `CPUSet.ToBucketList`: the sorted cpus as singleton buckets. -/
def setToBucketList (s : List Int) : List CPUBucket :=
  s.map (fun x => ⟨x, x⟩)

/-- `CPUSet.ToCpuString`: sorted cpus joined with ",". -/
def setToCpuString (s : List Int) : String :=
  String.intercalate "," (s.map toString)

/-- The canonical set of a plain cpu-id list. -/
def setOfList (l : List Int) : List Int :=
  l.foldl (fun a x => insSorted x a) []

/-! ## Per-namespace NUMA allocator (`part_003`, claims C2 and C7) -/

/-- `cpudaemon.NumaPerNamespaceAllocator` (configuration + namespace
bookkeeping; the cgroup controller and logger are passed separately). -/
structure PNAlloc where
  exclusive : Bool
  memoryPinning : Bool
  numBuckets : Int
  nsToBucket : List (String × Int)
  bucketToNum : List (Int × Int)
  globalBucket : Int
deriving DecidableEq, Repr

/-- `getMemoryPinning`: the distinct NUMA node ids of the given cpus, joined
with ",".  Go iterates a set map in unspecified order; the embedding fixes
the canonical sorted order (no claim inspects this string). -/
def getMemoryPinning (cpuInfo : List (Int × Int)) (cpuIds : List Int) : String :=
  setToCpuString (setOfList (cpuIds.map (fun c => mapLookupD cpuInfo c 0)))

/-- `getMemoryPinningIfEnabled`. -/
def getMemoryPinningIfEnabled (pin : Bool) (cpuInfo : List (Int × Int))
    (cpuIds : List Int) : String :=
  if pin then getMemoryPinning cpuInfo cpuIds else ""

/-- `NumaPerNamespaceAllocator.getBucket` (`part_003:57-71`): the namespace's
contiguous slice of `GetLeafs()`, as leaf paths. -/
def getBucket (al : PNAlloc) (s : DaemonState) (namesp : String) :
    Option (List (List Nat)) :=
  let leafs := getLeafPaths s.topology
  let bucketSize := (leafs.length : Int) / al.numBuckets
  match mapLookup al.nsToBucket namesp with
  | none => none
  | some nb =>
    if nb = al.numBuckets - 1 then some (leafs.drop (bucketSize * nb).toNat)
    else some ((leafs.drop (bucketSize * nb).toNat).take bucketSize.toNat)

/-- `newNamespace` (`part_003:253-258`). -/
def newNamespace (al : PNAlloc) (namesp : String) : PNAlloc :=
  { al with
    nsToBucket := mapInsert al.nsToBucket namesp (al.globalBucket % al.numBuckets)
    globalBucket := al.globalBucket + 1 }

/-- The counting loop of `takeGuaranteedCpusFromBucket`
(`part_003:146-155`): count available leaves, stopping at `c.Cpus`. -/
def countAvailUpTo (t : TopologyNode) (want : Int) :
    List (List Nat) → Int → Int
  | [], acc => acc
  | p :: rest, acc =>
    if 0 < availAt t p then
      if acc + 1 = want then acc + 1 else countAvailUpTo t want rest (acc + 1)
    else countAvailUpTo t want rest acc

/-- The taking loop of `takeGuaranteedCpusFromBucket` (`part_003:167-180`):
record the value, `Take()` the leaf, stop once `c.Cpus` ids are collected. -/
def takeGuaranteedLoop (want : Int) :
    TopologyNode → List (List Nat) → List Int → TopologyNode × List Int × Option ErrMsg
  | t, [], ids => (t, ids, none)
  | t, p :: rest, ids =>
    if 0 < availAt t p then
      let ids2 := ids ++ [valueAt t p]
      match leafTakeAt t p with
      | (t2, some e) => (t2, ids2, some e)
      | (t2, none) =>
        if (ids2.length : Int) = want then (t2, ids2, none)
        else takeGuaranteedLoop want t2 rest ids2
    else takeGuaranteedLoop want t rest ids

/-- `takeGuaranteedCpusFromBucket` (`part_003:142-181`). -/
def takeGuaranteedCpusFromBucket (t : TopologyNode) (bucket : List (List Nat))
    (c : Container) : TopologyNode × List Int × Option ErrMsg :=
  let numAvailable := countAvailUpTo t c.cpus bucket 0
  if numAvailable < c.cpus then
    (t, [], some (.notEnoughSpaceInBucket c.cpus numAvailable))
  else takeGuaranteedLoop c.cpus t bucket []

/-- `takeAllCpusFromBucket` (`part_003:183-194`): all bucket leaves, filtered
to the still-available ones in exclusive mode. -/
def takeAllCpusFromBucket (exclusive : Bool) (t : TopologyNode) :
    List (List Nat) → List Int
  | [] => []
  | p :: rest =>
    if !exclusive || 0 < availAt t p then valueAt t p :: takeAllCpusFromBucket exclusive t rest
    else takeAllCpusFromBucket exclusive t rest

/-- First container with the given id in a pod's container list. -/
def findInContainers (cid : String) : List Container → Option Container
  | [] => none
  | c :: rest => if c.cid = cid then some c else findInContainers cid rest

/-- `cpudaemon.findContainer` (`part_003:349-358`), searching the pods map in
its association-list order. -/
def findContainer (s : DaemonState) (cid : String) : Option Container :=
  go s.pods
where
  go : List (String × PodMetadata) → Option Container
    | [] => none
    | (_, pm) :: rest =>
      match findInContainers cid pm.containers with
      | some c => some c
      | none => go rest

/-- `s.Pods[c.PID].Namespace` with the Go zero value on a missing pod. -/
def podNamespaceOf (s : DaemonState) (c : Container) : String :=
  (mapLookupD s.pods c.pid ⟨"", "", "", []⟩).namesp

/-- The shared loop of `removeCpusFromCommonPool` / `addCpusToCommonPool`
(`part_003:272-347`): iterate over a snapshot of `s.Allocated`; for every
non-Guaranteed container of the namespace, re-pin it to its old set minus
(resp. union) `cpus`, persist the new bucket list, and abort on the first
failed write.  Returns the new allocated map, the trace of successful
re-pin writes `(cid, cpuset string)`, and the error. -/
def commonPoolLoop (remove : Bool) (pin : Bool) (wr : CgroupWriter) (s : DaemonState)
    (namesp : String) (cpus : List Int) :
    List (String × List CPUBucket) → List (String × List CPUBucket) →
      List (String × String) →
      List (String × List CPUBucket) × List (String × String) × Option DaemonError
  | [], alloc, tr => (alloc, tr, none)
  | (cid, bl) :: rest, alloc, tr =>
    match findContainer s cid with
    | none => commonPoolLoop remove pin wr s namesp cpus rest alloc tr
    | some c =>
      if podNamespaceOf s c ≠ namesp ∨ c.qs = QoS.Guaranteed then
        commonPoolLoop remove pin wr s namesp cpus rest alloc tr
      else
        let originalCPUs := cpuSetFromBucketList bl
        let newCPUs := if remove then setRemoveAll originalCPUs cpus
          else setMerge originalCPUs cpus
        match wr c (setToCpuString newCPUs)
            (getMemoryPinningIfEnabled pin s.cpuInformation newCPUs) with
        | some e => (alloc, tr, some e)
        | none =>
          commonPoolLoop remove pin wr s namesp cpus rest
            (mapInsert alloc cid (setToBucketList newCPUs)) (tr ++ [(cid, setToCpuString newCPUs)])

/-- `removeCpusFromCommonPool` (`part_003:272-309`). -/
def removeCpusFromCommonPool (pin : Bool) (wr : CgroupWriter) (s : DaemonState)
    (namesp : String) (cpus : List Int) :
    DaemonState × List (String × String) × Option DaemonError :=
  match commonPoolLoop true pin wr s namesp cpus s.allocated s.allocated [] with
  | (alloc, tr, e) => ({ s with allocated := alloc }, tr, e)

/-- `addCpusToCommonPool` (`part_003:311-347`). -/
def addCpusToCommonPool (pin : Bool) (wr : CgroupWriter) (s : DaemonState)
    (namesp : String) (cpus : List Int) :
    DaemonState × List (String × String) × Option DaemonError :=
  match commonPoolLoop false pin wr s namesp cpus s.allocated s.allocated [] with
  | (alloc, tr, e) => ({ s with allocated := alloc }, tr, e)

/-- The new-namespace admission step of `takeCpus` (`part_003:89-96`). -/
def admitNamespace (al : PNAlloc) (namesp : String) : PNAlloc :=
  if (mapLookup al.nsToBucket namesp).isNone then newNamespace al namesp else al

/-- `d.BucketToNumContainers[namespaceBucket]++` (`part_003:106-107`). -/
def incBucketCount (al : PNAlloc) (namesp : String) : PNAlloc :=
  let nb := mapLookupD al.nsToBucket namesp 0
  { al with bucketToNum := mapInsert al.bucketToNum nb (mapLookupD al.bucketToNum nb 0 + 1) }

/-- `NumaPerNamespaceAllocator.takeCpus` (`part_003:73-140`). -/
def pnTakeCpus (al : PNAlloc) (wr : CgroupWriter) (c : Container) (s : DaemonState) :
    PNAlloc × DaemonState × Option DaemonError :=
  if c.qs = QoS.Guaranteed ∧ c.cpus = 0 then
    (al, s, some ⟨.NotImplemented, .guaranteedZeroCpus⟩)
  else
    match mapLookup s.pods c.pid with
    | none => (al, s, some ⟨.PodNotFound, .podMetadataMissing c.pid⟩)
    | some pm =>
      let al1 := admitNamespace al pm.namesp
      match getBucket al1 s pm.namesp with
      | none => (al1, s, some ⟨.CpusNotAvailable, .bucketNotFound⟩)
      | some bucket =>
        let al2 := incBucketCount al1 pm.namesp
        match (if c.qs = QoS.Guaranteed
          then takeGuaranteedCpusFromBucket s.topology bucket c
          else (s.topology, takeAllCpusFromBucket al2.exclusive s.topology bucket, none)) with
        | (t2, cpuIds, terr) =>
          match terr with
          | some e => (al2, { s with topology := t2 }, some ⟨.CpusNotAvailable, e⟩)
          | none =>
            let allocatedList := cpuIds.map (fun i => (⟨i, i⟩ : CPUBucket))
            let s2 := { s with
              topology := t2
              allocated := mapInsert s.allocated c.cid allocatedList }
            match wr c (String.intercalate "," (cpuIds.map toString))
                (getMemoryPinningIfEnabled al2.memoryPinning s2.cpuInformation cpuIds) with
            | some e => (al2, s2, some e)
            | none =>
              if al2.exclusive ∧ c.qs = QoS.Guaranteed then
                match removeCpusFromCommonPool al2.memoryPinning wr s2 pm.namesp
                    (setOfList cpuIds) with
                | (s3, _, rerr) => (al2, s3, rerr)
              else (al2, s2, none)

def pmNs1 : PodMetadata := ⟨"pod1", "pod1n", "ns1", []⟩
def al0 : PNAlloc := ⟨false, false, 2, [], [], 0⟩
def s2cpu : DaemonState :=
  { availableCPUs := [], allocated := [], pods := [("pod1", pmNs1)],
    topology := flatTopo2, cpuInformation := [], cgroupPath := "", statePath := "" }
def cG2 : Container := ⟨"cid1", "pod1", "c1", 2, QoS.Guaranteed⟩

/-! ## Claim C2: failed Guaranteed take in the per-namespace allocator -/

/-- The number of available leaves in a bucket. -/
def countAvail (t : TopologyNode) (bucket : List (List Nat)) : Int :=
  ((bucket.filter (fun p => 0 < availAt t p)).length : Int)

theorem countAvail_nonneg (t : TopologyNode) (bucket : List (List Nat)) :
    0 ≤ countAvail t bucket := by
  unfold countAvail
  positivity

theorem countAvailUpTo_total (t : TopologyNode) (want : Int) :
    ∀ (l : List (List Nat)) (acc : Int), acc + countAvail t l < want →
    countAvailUpTo t want l acc = acc + countAvail t l := by
  intro l
  induction l with
  | nil =>
    intro acc _
    simp [countAvailUpTo, countAvail]
  | cons p rest ih =>
    intro acc hlt
    by_cases hp : 0 < availAt t p
    · have hcnt : countAvail t (p :: rest) = 1 + countAvail t rest := by
        simp [countAvail, List.filter_cons, hp]
        omega
      rw [hcnt] at hlt
      have hrest : 0 ≤ countAvail t rest := countAvail_nonneg t rest
      have hne : ¬ acc + 1 = want := by omega
      simp only [countAvailUpTo, if_pos hp, if_neg hne]
      rw [ih (acc + 1) (by omega), hcnt]
      ring
    · have hcnt : countAvail t (p :: rest) = countAvail t rest := by
        simp [countAvail, List.filter_cons, hp]
      rw [hcnt] at hlt
      simp only [countAvailUpTo, if_neg hp]
      rw [ih acc hlt, hcnt]

/-- When the bucket holds fewer than `c.cpus` available leaves,
`takeGuaranteedCpusFromBucket` fails with `ErrNotEnoughSpaceInBucket` and
returns the topology untouched. -/
theorem takeGuaranteed_shortage (t : TopologyNode) (bucket : List (List Nat))
    (c : Container) (hshort : countAvail t bucket < c.cpus) :
    takeGuaranteedCpusFromBucket t bucket c =
      (t, [], some (.notEnoughSpaceInBucket c.cpus (countAvail t bucket))) := by
  unfold takeGuaranteedCpusFromBucket
  have h0 : (0 : Int) + countAvail t bucket < c.cpus := by omega
  rw [countAvailUpTo_total t c.cpus bucket 0 h0]
  have hz : (0 : Int) + countAvail t bucket = countAvail t bucket := by ring
  rw [hz, if_pos hshort]

/-- C2 (amended): when a Guaranteed container's take finds fewer than
`c.cpus` available leaves in the namespace's bucket, it fails with the
"not enough free cpus in namespace bucket" error and leaves the whole
`DaemonState` — topology availability and `allocated` map included —
unchanged; however, the allocator's bookkeeping is NOT unchanged: the
namespace is admitted into `NamespaceToBucket` when new (advancing the
round-robin counter), and the namespace bucket's container count has been
incremented. -/
theorem claim_C2_amended (al : PNAlloc) (wr : CgroupWriter) (c : Container)
    (s : DaemonState) (pm : PodMetadata) (bucket : List (List Nat))
    (hq : c.qs = QoS.Guaranteed) (hc1 : 1 ≤ c.cpus)
    (hpod : mapLookup s.pods c.pid = some pm)
    (hbucket : getBucket (admitNamespace al pm.namesp) s pm.namesp = some bucket)
    (hshort : countAvail s.topology bucket < c.cpus) :
    pnTakeCpus al wr c s =
      (incBucketCount (admitNamespace al pm.namesp) pm.namesp, s,
        some ⟨.CpusNotAvailable,
          .notEnoughSpaceInBucket c.cpus (countAvail s.topology bucket)⟩) := by
  unfold pnTakeCpus
  rw [if_neg (by
    intro hand
    omega : ¬ (c.qs = QoS.Guaranteed ∧ c.cpus = 0))]
  rw [hpod]
  dsimp only
  rw [hbucket]
  dsimp only
  rw [if_pos hq]
  rw [takeGuaranteed_shortage s.topology bucket c hshort]

/-- Witness for C2 (amended): a Guaranteed container wanting 2 cpus out of a
1-leaf bucket. -/
theorem claim_C2_amended_witness :
    pnTakeCpus al0 wrAlwaysOk cG2 s2cpu =
      (incBucketCount (admitNamespace al0 pmNs1.namesp) pmNs1.namesp, s2cpu,
        some ⟨.CpusNotAvailable,
          .notEnoughSpaceInBucket cG2.cpus (countAvail s2cpu.topology [[0]])⟩) :=
  claim_C2_amended al0 wrAlwaysOk cG2 s2cpu pmNs1 [[0]]
    rfl (by decide) (by decide) (by decide) (by decide)

/-- C2 (counterexample): on that same failed call the claim's "namespace-to-
bucket map and bucket-to-container-count map unchanged" is false: both maps
gain entries. -/
theorem claim_C2_counterexample :
    (pnTakeCpus al0 wrAlwaysOk cG2 s2cpu).2.2 =
      some ⟨.CpusNotAvailable, .notEnoughSpaceInBucket 2 1⟩ ∧
    al0.bucketToNum = [] ∧
    (pnTakeCpus al0 wrAlwaysOk cG2 s2cpu).1.bucketToNum = [(0, 1)] ∧
    al0.nsToBucket = [] ∧
    (pnTakeCpus al0 wrAlwaysOk cG2 s2cpu).1.nsToBucket = [("ns1", 0)] := by
  decide

/-! ## Claim C7: exclusive-mode re-pinning of the common pool -/

theorem commonPoolLoop_untouched (remove pin : Bool) (wr : CgroupWriter)
    (s : DaemonState) (namesp : String) (cpus : List Int) :
    ∀ (entries alloc : List (String × List CPUBucket)) (tr : List (String × String))
      (cid : String), cid ∉ mapKeys entries →
    mapLookup (commonPoolLoop remove pin wr s namesp cpus entries alloc tr).1 cid =
      mapLookup alloc cid := by
  intro entries
  induction entries with
  | nil => intro alloc tr cid _; rfl
  | cons e rest ih =>
    intro alloc tr cid hnot
    obtain ⟨cid0, bl0⟩ := e
    have hne : cid0 ≠ cid := by
      intro h
      exact hnot (by simp [mapKeys, h])
    have hnotrest : cid ∉ mapKeys rest := by
      intro h
      exact hnot (by simp [mapKeys] at h ⊢; exact Or.inr h)
    simp only [commonPoolLoop]
    cases hfc : findContainer s cid0 with
    | none => exact ih alloc tr cid hnotrest
    | some c =>
      dsimp only
      by_cases hskip : podNamespaceOf s c ≠ namesp ∨ c.qs = QoS.Guaranteed
      · rw [if_pos hskip]
        exact ih alloc tr cid hnotrest
      · rw [if_neg hskip]
        cases hwr : wr c (setToCpuString (if remove
            then setRemoveAll (cpuSetFromBucketList bl0) cpus
            else setMerge (cpuSetFromBucketList bl0) cpus))
            (getMemoryPinningIfEnabled pin s.cpuInformation (if remove
              then setRemoveAll (cpuSetFromBucketList bl0) cpus
              else setMerge (cpuSetFromBucketList bl0) cpus)) with
        | some e => rfl
        | none =>
          rw [ih _ _ cid hnotrest]
          exact mapLookup_insert_ne _ _ _ _ hne

theorem commonPoolLoop_trace_mono (remove pin : Bool) (wr : CgroupWriter)
    (s : DaemonState) (namesp : String) (cpus : List Int) :
    ∀ (entries alloc : List (String × List CPUBucket)) (tr : List (String × String))
      (x : String × String), x ∈ tr →
    x ∈ (commonPoolLoop remove pin wr s namesp cpus entries alloc tr).2.1 := by
  intro entries
  induction entries with
  | nil => intro alloc tr x hx; exact hx
  | cons e rest ih =>
    intro alloc tr x hx
    obtain ⟨cid0, bl0⟩ := e
    simp only [commonPoolLoop]
    cases hfc : findContainer s cid0 with
    | none => exact ih alloc tr x hx
    | some c =>
      dsimp only
      by_cases hskip : podNamespaceOf s c ≠ namesp ∨ c.qs = QoS.Guaranteed
      · rw [if_pos hskip]
        exact ih alloc tr x hx
      · rw [if_neg hskip]
        cases hwr : wr c (setToCpuString (if remove
            then setRemoveAll (cpuSetFromBucketList bl0) cpus
            else setMerge (cpuSetFromBucketList bl0) cpus))
            (getMemoryPinningIfEnabled pin s.cpuInformation (if remove
              then setRemoveAll (cpuSetFromBucketList bl0) cpus
              else setMerge (cpuSetFromBucketList bl0) cpus)) with
        | some e => exact hx
        | none =>
          exact ih _ _ x (by simp [hx])

theorem commonPoolLoop_spec (remove pin : Bool) (wr : CgroupWriter)
    (s : DaemonState) (namesp : String) (cpus : List Int) :
    ∀ (entries alloc : List (String × List CPUBucket)) (tr0 : List (String × String)),
    (mapKeys entries).Nodup →
    ∀ alloc2 tr2,
      commonPoolLoop remove pin wr s namesp cpus entries alloc tr0 = (alloc2, tr2, none) →
    ∀ cid bl c, mapLookup entries cid = some bl → findContainer s cid = some c →
      podNamespaceOf s c = namesp → c.qs ≠ QoS.Guaranteed →
      mapLookup alloc2 cid = some (setToBucketList (if remove
        then setRemoveAll (cpuSetFromBucketList bl) cpus
        else setMerge (cpuSetFromBucketList bl) cpus)) ∧
      (cid, setToCpuString (if remove
        then setRemoveAll (cpuSetFromBucketList bl) cpus
        else setMerge (cpuSetFromBucketList bl) cpus)) ∈ tr2 := by
  intro entries
  induction entries with
  | nil =>
    intro alloc tr0 _ alloc2 tr2 _ cid bl c hlook
    simp [mapLookup] at hlook
  | cons e rest ih =>
    intro alloc tr0 hnodup alloc2 tr2 heq cid bl c hlook hfind hns hqs
    obtain ⟨cid0, bl0⟩ := e
    have hnodup0 : cid0 ∉ mapKeys rest := by
      simp only [mapKeys, List.map_cons, List.nodup_cons] at hnodup
      exact hnodup.1
    have hnoduprest : (mapKeys rest).Nodup := by
      simp only [mapKeys, List.map_cons, List.nodup_cons] at hnodup
      exact hnodup.2
    simp only [commonPoolLoop] at heq
    by_cases hcid : cid0 = cid
    · subst hcid
      have hbl : bl0 = bl := by
        simpa [mapLookup] using hlook
      rw [hbl] at heq
      rw [hfind] at heq
      dsimp only at heq
      have hnskip : ¬ (podNamespaceOf s c ≠ namesp ∨ c.qs = QoS.Guaranteed) := by
        push_neg
        exact ⟨by simpa using hns, hqs⟩
      rw [if_neg hnskip] at heq
      cases hwr : wr c (setToCpuString (if remove
          then setRemoveAll (cpuSetFromBucketList bl) cpus
          else setMerge (cpuSetFromBucketList bl) cpus))
          (getMemoryPinningIfEnabled pin s.cpuInformation (if remove
            then setRemoveAll (cpuSetFromBucketList bl) cpus
            else setMerge (cpuSetFromBucketList bl) cpus)) with
      | some e =>
        rw [hwr] at heq
        simp at heq
      | none =>
        rw [hwr] at heq
        dsimp only at heq
        constructor
        · have huntouched := commonPoolLoop_untouched remove pin wr s namesp cpus rest
            (mapInsert alloc cid0 (setToBucketList (if remove
              then setRemoveAll (cpuSetFromBucketList bl) cpus
              else setMerge (cpuSetFromBucketList bl) cpus)))
            (tr0 ++ [(cid0, setToCpuString (if remove
              then setRemoveAll (cpuSetFromBucketList bl) cpus
              else setMerge (cpuSetFromBucketList bl) cpus))]) cid0 hnodup0
          rw [heq] at huntouched
          simp only at huntouched
          rw [huntouched]
          exact mapLookup_insert_self _ _ _
        · have htr := commonPoolLoop_trace_mono remove pin wr s namesp cpus rest
            (mapInsert alloc cid0 (setToBucketList (if remove
              then setRemoveAll (cpuSetFromBucketList bl) cpus
              else setMerge (cpuSetFromBucketList bl) cpus)))
            (tr0 ++ [(cid0, setToCpuString (if remove
              then setRemoveAll (cpuSetFromBucketList bl) cpus
              else setMerge (cpuSetFromBucketList bl) cpus))])
            (cid0, setToCpuString (if remove
              then setRemoveAll (cpuSetFromBucketList bl) cpus
              else setMerge (cpuSetFromBucketList bl) cpus)) (by simp)
          rw [heq] at htr
          exact htr
    · have hlookrest : mapLookup rest cid = some bl := by
        simpa [mapLookup, hcid] using hlook
      cases hfc : findContainer s cid0 with
      | none =>
        rw [hfc] at heq
        exact ih alloc tr0 hnoduprest alloc2 tr2 heq cid bl c hlookrest hfind hns hqs
      | some c0 =>
        rw [hfc] at heq
        dsimp only at heq
        by_cases hskip : podNamespaceOf s c0 ≠ namesp ∨ c0.qs = QoS.Guaranteed
        · rw [if_pos hskip] at heq
          exact ih alloc tr0 hnoduprest alloc2 tr2 heq cid bl c hlookrest hfind hns hqs
        · rw [if_neg hskip] at heq
          cases hwr : wr c0 (setToCpuString (if remove
              then setRemoveAll (cpuSetFromBucketList bl0) cpus
              else setMerge (cpuSetFromBucketList bl0) cpus))
              (getMemoryPinningIfEnabled pin s.cpuInformation (if remove
                then setRemoveAll (cpuSetFromBucketList bl0) cpus
                else setMerge (cpuSetFromBucketList bl0) cpus)) with
          | some e =>
            rw [hwr] at heq
            simp at heq
          | none =>
            rw [hwr] at heq
            dsimp only at heq
            exact ih _ _ hnoduprest alloc2 tr2 heq cid bl c hlookrest hfind hns hqs

/-- C7 (confirmed): whenever the exclusive-mode common-pool update runs to
completion (as it does after every successful Guaranteed take — which calls
`removeCpusFromCommonPool` with the just-taken cpus — and every successful
Guaranteed free — which calls `addCpusToCommonPool` with the freed cpus),
every non-Guaranteed container whose pod is in the same namespace is
re-pinned (a cgroup write with the new cpuset string) to its old cpuset
minus, resp. union, the given cpus, and the new cpuset is persisted back
into the allocated map. -/
theorem claim_C7_exclusive_repin (pin : Bool) (wr : CgroupWriter) (s : DaemonState)
    (namesp : String) (cpus : List Int)
    (hnodup : (mapKeys s.allocated).Nodup) :
    (∀ s2 tr, removeCpusFromCommonPool pin wr s namesp cpus = (s2, tr, none) →
      ∀ cid bl c, mapLookup s.allocated cid = some bl →
        findContainer s cid = some c → podNamespaceOf s c = namesp →
        c.qs ≠ QoS.Guaranteed →
        mapLookup s2.allocated cid =
          some (setToBucketList (setRemoveAll (cpuSetFromBucketList bl) cpus)) ∧
        (cid, setToCpuString (setRemoveAll (cpuSetFromBucketList bl) cpus)) ∈ tr) ∧
    (∀ s2 tr, addCpusToCommonPool pin wr s namesp cpus = (s2, tr, none) →
      ∀ cid bl c, mapLookup s.allocated cid = some bl →
        findContainer s cid = some c → podNamespaceOf s c = namesp →
        c.qs ≠ QoS.Guaranteed →
        mapLookup s2.allocated cid =
          some (setToBucketList (setMerge (cpuSetFromBucketList bl) cpus)) ∧
        (cid, setToCpuString (setMerge (cpuSetFromBucketList bl) cpus)) ∈ tr) := by
  constructor
  · intro s2 tr heq cid bl c hlook hfind hns hqs
    unfold removeCpusFromCommonPool at heq
    cases hloop : commonPoolLoop true pin wr s namesp cpus s.allocated s.allocated [] with
    | mk alloc rest2 =>
      obtain ⟨tr1, e⟩ := rest2
      rw [hloop] at heq
      dsimp only at heq
      simp only [Prod.mk.injEq] at heq
      obtain ⟨hs2, htr, he⟩ := heq
      subst he
      have hspec := commonPoolLoop_spec true pin wr s namesp cpus s.allocated s.allocated []
        hnodup alloc tr1 hloop cid bl c hlook hfind hns hqs
      simp only [if_pos rfl] at hspec
      rw [← hs2, ← htr]
      simpa using hspec
  · intro s2 tr heq cid bl c hlook hfind hns hqs
    unfold addCpusToCommonPool at heq
    cases hloop : commonPoolLoop false pin wr s namesp cpus s.allocated s.allocated [] with
    | mk alloc rest2 =>
      obtain ⟨tr1, e⟩ := rest2
      rw [hloop] at heq
      dsimp only at heq
      simp only [Prod.mk.injEq] at heq
      obtain ⟨hs2, htr, he⟩ := heq
      subst he
      have hspec := commonPoolLoop_spec false pin wr s namesp cpus s.allocated s.allocated []
        hnodup alloc tr1 hloop cid bl c hlook hfind hns hqs
      rw [← hs2, ← htr]
      simpa using hspec

/-- State for the C7 witness: one Burstable container of namespace ns1
pinned to `{0, 1}`. -/
def pmW : PodMetadata := ⟨"pod1", "p1", "ns1", [⟨"cidB", "pod1", "b", 1, QoS.Burstable⟩]⟩

def sW : DaemonState :=
  { availableCPUs := []
    allocated := [("cidB", [⟨0, 0⟩, ⟨1, 1⟩])]
    pods := [("pod1", pmW)]
    topology := flatTopo2
    cpuInformation := []
    cgroupPath := ""
    statePath := "" }

/-- Witness for C7: removing cpu 0 re-pins the Burstable container to `{1}`;
adding cpu 2 re-pins it to `{0,1,2}`. -/
theorem claim_C7_witness :
    mapLookup (removeCpusFromCommonPool false wrAlwaysOk sW "ns1" [0]).1.allocated "cidB" =
      some [⟨1, 1⟩] ∧
    ("cidB", "1") ∈ (removeCpusFromCommonPool false wrAlwaysOk sW "ns1" [0]).2.1 ∧
    mapLookup (addCpusToCommonPool false wrAlwaysOk sW "ns1" [2]).1.allocated "cidB" =
      some [⟨0, 0⟩, ⟨1, 1⟩, ⟨2, 2⟩] ∧
    ("cidB", "0,1,2") ∈ (addCpusToCommonPool false wrAlwaysOk sW "ns1" [2]).2.1 := by
  have h1 := (claim_C7_exclusive_repin false wrAlwaysOk sW "ns1" [0] (by decide)).1
    (removeCpusFromCommonPool false wrAlwaysOk sW "ns1" [0]).1
    (removeCpusFromCommonPool false wrAlwaysOk sW "ns1" [0]).2.1 rfl
    "cidB" [⟨0, 0⟩, ⟨1, 1⟩] ⟨"cidB", "pod1", "b", 1, QoS.Burstable⟩
    (by decide) (by decide) (by decide) (by decide)
  have h2 := (claim_C7_exclusive_repin false wrAlwaysOk sW "ns1" [2] (by decide)).2
    (addCpusToCommonPool false wrAlwaysOk sW "ns1" [2]).1
    (addCpusToCommonPool false wrAlwaysOk sW "ns1" [2]).2.1 rfl
    "cidB" [⟨0, 0⟩, ⟨1, 1⟩] ⟨"cidB", "pod1", "b", 1, QoS.Burstable⟩
    (by decide) (by decide) (by decide) (by decide)
  exact ⟨by rw [h1.1]; rfl, h1.2, by rw [h2.1]; rfl, h2.2⟩

/-! ## Daemon `CreatePod` (`part_002:161-219`, claim C1) -/

/-- `ctlplaneapi.CreatePodRequest`. -/
structure CreatePodRequest where
  podId : String
  podName : String
  podNamespace : String
  resources : ResourceInfoI
  containers : List ContainerInfoReq
deriving DecidableEq, Repr

/-- The error sentinels of `pkg/ctlplaneapi` validation
(`validation_test.go`, second staged document: `ErrEmptyString`,
`ErrLessThanZero`, `ErrLimitSmallerThanRequest`, `ErrNoContainers`).  The
`fmt.Errorf` wrappers only add message text, so each returned error is
modelled by its sentinel. -/
inductive ValidationError where
  | emptyString
  | lessThanZero
  | limitSmallerThanRequest
  | noContainers
deriving DecidableEq, Repr

/-- `ctlplaneapi.returnErrorIfLessThanZero`: first entry with a negative
value yields `ErrLessThanZero`. -/
def returnErrorIfLessThanZero : List Int → Option ValidationError
  | [] => none
  | i :: rest =>
    if i < 0 then some .lessThanZero else returnErrorIfLessThanZero rest

/-- `ctlplaneapi.returnErrorIfEmptyString`: first empty entry yields
`ErrEmptyString`. -/
def returnErrorIfEmptyString : List String → Option ValidationError
  | [] => none
  | s :: rest =>
    if s = "" then some .emptyString else returnErrorIfEmptyString rest

/-- `ctlplaneapi.ValidateResourceInfo`: the four fields must be at least 0
(checked in source order), then each limit must be at least its request. -/
def ValidateResourceInfo (info : ResourceInfoI) : Option ValidationError :=
  match returnErrorIfLessThanZero
      [info.requestedCpus, info.limitCpus, info.requestedMemory, info.limitMemory] with
  | some e => some e
  | none =>
    if info.limitCpus < info.requestedCpus then some .limitSmallerThanRequest
    else if info.limitMemory < info.requestedMemory then some .limitSmallerThanRequest
    else none

/-- `ctlplaneapi.ValidateContainers`: per container, id and name non-empty,
then its resources pass `ValidateResourceInfo`; first error wins. -/
def ValidateContainers : List ContainerInfoReq → Option ValidationError
  | [] => none
  | c :: rest =>
    match returnErrorIfEmptyString [c.containerId, c.containerName] with
    | some e => some e
    | none =>
      match ValidateResourceInfo c.resources with
      | some e => some e
      | none => ValidateContainers rest

/-- `ctlplaneapi.ValidateCreatePodRequest`: at least one container; pod id,
name, namespace non-empty; pod resources valid; all containers valid. -/
def ValidateCreatePodRequest (req : CreatePodRequest) : Option ValidationError :=
  if req.containers.isEmpty then some .noContainers
  else
    match returnErrorIfEmptyString [req.podId, req.podName, req.podNamespace] with
    | some e => some e
    | none =>
      match ValidateResourceInfo req.resources with
      | some e => some e
      | none => ValidateContainers req.containers

/-- `Daemon.CreatePod` only branches on whether
`ctlplaneapi.ValidateCreatePodRequest` returned nil. -/
def validateCreatePodRequest (req : CreatePodRequest) : Bool :=
  (ValidateCreatePodRequest req).isNone

/-- The `cpudaemon.Policy` interface: `AssignContainer`, `DeleteContainer`,
`ClearContainer`, each an arbitrary state transformer returning an optional
error. -/
structure PolicyM where
  assign : Container → DaemonState → DaemonState × Option DaemonError
  remove : Container → DaemonState → DaemonState × Option DaemonError
  clear : Container → DaemonState → DaemonState × Option DaemonError

/-- Observable policy invocations of a daemon call. -/
inductive PEvent where
  | assign (c : Container)
  | clear (c : Container)
deriving DecidableEq, Repr

/-- `Daemon.rollbackContainers` (`part_002:161-168`): calls
`policy.ClearContainer` on the given containers in list order, logging and
ignoring every error. -/
def rollbackContainers (p : PolicyM) (podID : String) :
    List ContainerInfoReq → DaemonState → DaemonState × List PEvent
  | [], s => (s, [])
  | ci :: rest, s =>
    let c := containerFromRequest ci podID
    let s2 := (p.clear c s).1
    let (s3, evs) := rollbackContainers p podID rest s2
    (s3, PEvent.clear c :: evs)

/-- The `for i, it := range req.Containers` loop of `Daemon.CreatePod`
(`part_002:192-218`): `done` is the processed prefix `req.Containers[:i]`
used for rollback, `meta` the pod metadata accumulated so far, `acc` the
`containersCpus` reply list.  After the loop, `saveState` either succeeds
(`persistOk`) or surfaces `RuntimeError` (keeping the in-memory state). -/
def createPodLoop (p : PolicyM) (persistOk : Bool) (req : CreatePodRequest) :
    List ContainerInfoReq → List ContainerInfoReq → PodMetadata →
    List (String × List CPUBucket) → DaemonState → List PEvent →
    DaemonState × List PEvent × Except DaemonError (List (String × List CPUBucket))
  | _, [], _, acc, s, evs =>
    if persistOk then (s, evs, .ok acc)
    else (s, evs, .error ⟨.RuntimeError, .other⟩)
  | done, ci :: rest, meta, acc, s, evs =>
    let c := containerFromRequest ci req.podId
    match p.assign c s with
    | (s1, some e) =>
      let (s2, revs) := rollbackContainers p req.podId done s1
      ({ s2 with pods := mapErase s2.pods req.podId },
        evs ++ [PEvent.assign c] ++ revs, .error e)
    | (s1, none) =>
      let acc2 := acc ++ [(ci.containerId, mapLookupD s1.allocated ci.containerId [])]
      let meta2 := { meta with containers := meta.containers ++ [c] }
      let s2 := { s1 with pods := mapInsert s1.pods req.podId meta2 }
      createPodLoop p persistOk req (done ++ [ci]) rest meta2 acc2 s2
        (evs ++ [PEvent.assign c])

/-- `Daemon.CreatePod` (`part_002:172-219`). -/
def createPod (p : PolicyM) (persistOk : Bool) (req : CreatePodRequest)
    (s : DaemonState) :
    DaemonState × List PEvent × Except DaemonError (List (String × List CPUBucket)) :=
  if validateCreatePodRequest req then
    let podMeta : PodMetadata := ⟨req.podId, req.podName, req.podNamespace, []⟩
    createPodLoop p persistOk req [] req.containers podMeta []
      { s with pods := mapInsert s.pods req.podId podMeta } []
  else (s, [], .error ⟨.PodSpecError, .other⟩)

/-- The success path of the loop over a prefix: all assigns succeed, the pod
metadata and state are threaded exactly as in `createPodLoop`. -/
def assignPrefix (p : PolicyM) (req : CreatePodRequest) :
    List ContainerInfoReq → PodMetadata → DaemonState →
    Option (PodMetadata × DaemonState)
  | [], meta, s => some (meta, s)
  | ci :: rest, meta, s =>
    let c := containerFromRequest ci req.podId
    match p.assign c s with
    | (_, some _) => none
    | (s1, none) =>
      let meta2 := { meta with containers := meta.containers ++ [c] }
      assignPrefix p req rest meta2 { s1 with pods := mapInsert s1.pods req.podId meta2 }

theorem rollbackContainers_events (p : PolicyM) (podID : String) :
    ∀ (cs : List ContainerInfoReq) (s : DaemonState),
    (rollbackContainers p podID cs s).2 =
      cs.map (fun ci => PEvent.clear (containerFromRequest ci podID)) := by
  intro cs
  induction cs with
  | nil => intro s; rfl
  | cons ci rest ih =>
    intro s
    simp only [rollbackContainers, List.map_cons]
    rw [ih]

theorem createPodLoop_fail (p : PolicyM) (persistOk : Bool) (req : CreatePodRequest)
    (fc : ContainerInfoReq) (rest : List ContainerInfoReq) (sFail : DaemonState)
    (e : DaemonError) :
    ∀ (todo donePre : List ContainerInfoReq) (meta : PodMetadata)
      (acc : List (String × List CPUBucket)) (s : DaemonState) (evs : List PEvent)
      (metaMid : PodMetadata) (sMid : DaemonState),
    assignPrefix p req todo meta s = some (metaMid, sMid) →
    p.assign (containerFromRequest fc req.podId) sMid = (sFail, some e) →
    createPodLoop p persistOk req donePre (todo ++ fc :: rest) meta acc s evs =
      ({ (rollbackContainers p req.podId (donePre ++ todo) sFail).1 with
          pods := mapErase (rollbackContainers p req.podId (donePre ++ todo) sFail).1.pods
            req.podId },
        evs ++ todo.map (fun ci => PEvent.assign (containerFromRequest ci req.podId)) ++
          [PEvent.assign (containerFromRequest fc req.podId)] ++
          (rollbackContainers p req.podId (donePre ++ todo) sFail).2,
        .error e) := by
  intro todo
  induction todo with
  | nil =>
    intro donePre meta acc s evs metaMid sMid hpre hfail
    simp only [assignPrefix, Option.some.injEq, Prod.mk.injEq] at hpre
    obtain ⟨-, hs⟩ := hpre
    subst hs
    simp only [List.nil_append, createPodLoop, hfail, List.map_nil, List.append_nil,
      List.append_assoc]
  | cons ci todo2 ih =>
    intro donePre meta acc s evs metaMid sMid hpre hfail
    simp only [assignPrefix] at hpre
    cases hassign : p.assign (containerFromRequest ci req.podId) s with
    | mk s1 aerr =>
      rw [hassign] at hpre
      cases aerr with
      | some e2 => simp at hpre
      | none =>
        dsimp only at hpre
        simp only [List.cons_append, createPodLoop, hassign, List.append_eq]
        rw [ih (donePre ++ [ci]) _ _ _ _ metaMid sMid hpre hfail]
        have hlist : donePre ++ [ci] ++ todo2 = donePre ++ ci :: todo2 := by simp
        rw [hlist]
        simp [List.append_assoc]

/-- C1 (amended): when validation passes, the assigns of the first `i`
containers succeed and the `(i+1)`-st assign fails with error `e`,
`CreatePod` returns that original error, invokes `policy.clear` on every
previously-assigned container of the pod in REQUEST order (not reverse), and
removes the pod's metadata entry; the final state is the failing-assign
state transformed by those clear calls with the pod entry erased — the
side effects of the successful assigns are NOT otherwise undone (with the
static policy, allocator bookkeeping from them persists). -/
theorem claim_C1_amended (p : PolicyM) (persistOk : Bool) (req : CreatePodRequest)
    (s : DaemonState) (done : List ContainerInfoReq) (fc : ContainerInfoReq)
    (rest : List ContainerInfoReq) (metaMid : PodMetadata) (sMid sFail : DaemonState)
    (e : DaemonError)
    (hval : validateCreatePodRequest req = true)
    (hsplit : req.containers = done ++ fc :: rest)
    (hpre : assignPrefix p req done ⟨req.podId, req.podName, req.podNamespace, []⟩
        { s with pods := mapInsert s.pods req.podId ⟨req.podId, req.podName, req.podNamespace, []⟩ }
      = some (metaMid, sMid))
    (hfail : p.assign (containerFromRequest fc req.podId) sMid = (sFail, some e)) :
    createPod p persistOk req s =
      ({ (rollbackContainers p req.podId done sFail).1 with
          pods := mapErase (rollbackContainers p req.podId done sFail).1.pods req.podId },
        done.map (fun ci => PEvent.assign (containerFromRequest ci req.podId)) ++
          [PEvent.assign (containerFromRequest fc req.podId)] ++
          done.map (fun ci => PEvent.clear (containerFromRequest ci req.podId)),
        .error e) := by
  unfold createPod
  rw [if_pos hval]
  dsimp only
  rw [hsplit]
  have h := createPodLoop_fail p persistOk req fc rest sFail e done []
    ⟨req.podId, req.podName, req.podNamespace, []⟩ []
    { s with pods := mapInsert s.pods req.podId ⟨req.podId, req.podName, req.podNamespace, []⟩ }
    [] metaMid sMid hpre hfail
  rw [h]
  simp [rollbackContainers_events]

/-! ### The static policy over the Default allocator, for concrete runs -/

/-- `DefaultAllocator.freeCpus` (`daemon_allocators.go:145-165`).  `v[0]` is
modelled as `headD` with an inert default (the entry list is never empty for
entries written by `takeCpus`). -/
def defaultFreeCpus (c : Container) (s : DaemonState) : DaemonState × Option DaemonError :=
  if c.qs ≠ QoS.Guaranteed then (s, none)
  else
    match mapLookup s.allocated c.cid with
    | none => (s, some ⟨.ContainerNotFound, .containerNotAllocated c.cid⟩)
    | some v =>
      let v0 := v.headD ⟨0, -1⟩
      ({ s with
          allocated := mapErase s.allocated c.cid
          availableCPUs := s.availableCPUs.map (fun b =>
            if v0.endCPU = b.startCPU - 1 then { b with startCPU := v0.startCPU } else b) },
        none)

/-- `DefaultAllocator.clearCpus` (`daemon_allocators.go:167-175`): writes the
union of available and all allocated cpus; no state change. -/
def defaultClearCpus (wr : CgroupWriter) (c : Container) (s : DaemonState) :
    DaemonState × Option DaemonError :=
  (s, wr c (setToCpuString (cpuSetFromBucketList
      (s.availableCPUs ++ (s.allocated.map Prod.snd).join))) "")

/-- `StaticPolicy` over the Default allocator with an always-succeeding
cgroup writer. -/
def defaultPolicy : PolicyM :=
  { assign := defaultTakeCpus wrAlwaysOk
    remove := defaultFreeCpus
    clear := defaultClearCpus wrAlwaysOk }

def cR0 : ContainerInfoReq := ⟨"c0", "n0", ⟨1, 1, 0, 0⟩⟩
def cR1 : ContainerInfoReq := ⟨"c1", "n1", ⟨1, 1, 0, 0⟩⟩
def cR2 : ContainerInfoReq := ⟨"c2", "n2", ⟨10, 10, 0, 0⟩⟩

/-- A CreatePod request with three Guaranteed containers (1, 1 and 10 cpus)
against a 4-cpu pool: the third assign must fail. -/
def reqC1 : CreatePodRequest := ⟨"p", "pn", "ns", ⟨12, 12, 0, 0⟩, [cR0, cR1, cR2]⟩

def sC1 : DaemonState :=
  { availableCPUs := [⟨0, 3⟩]
    allocated := []
    pods := []
    topology := flatTopo2
    cpuInformation := []
    cgroupPath := ""
    statePath := "" }

/-- Witness for C1 (amended): the concrete three-container run. -/
theorem claim_C1_amended_witness :
    createPod defaultPolicy true reqC1 sC1 =
      ({ sC1 with
          availableCPUs := [⟨2, 3⟩]
          allocated := [("c0", [⟨0, 0⟩]), ("c1", [⟨1, 1⟩])]
          pods := [] },
        [PEvent.assign ⟨"c0", "p", "n0", 1, QoS.Guaranteed⟩,
          PEvent.assign ⟨"c1", "p", "n1", 1, QoS.Guaranteed⟩,
          PEvent.assign ⟨"c2", "p", "n2", 10, QoS.Guaranteed⟩,
          PEvent.clear ⟨"c0", "p", "n0", 1, QoS.Guaranteed⟩,
          PEvent.clear ⟨"c1", "p", "n1", 1, QoS.Guaranteed⟩],
        .error ⟨.CpusNotAvailable, .noAvailableCpus⟩) := by
  have h := claim_C1_amended defaultPolicy true reqC1 sC1 [cR0, cR1] cR2 []
    _ _ _ _ (by decide) rfl rfl rfl
  exact h

/-- C1 (counterexample): on that same run the claim's "clear in reverse
order" and "final State identical to the pre-call State" both fail: the
clear calls come in request order `c0, c1` (not `c1, c0`), and the two
successfully-assigned containers are still in the allocated map with the
cpu pool still reduced, although the pod metadata entry is gone and the
original error is returned. -/
theorem claim_C1_counterexample :
    (createPod defaultPolicy true reqC1 sC1).2.1 =
      [PEvent.assign ⟨"c0", "p", "n0", 1, QoS.Guaranteed⟩,
        PEvent.assign ⟨"c1", "p", "n1", 1, QoS.Guaranteed⟩,
        PEvent.assign ⟨"c2", "p", "n2", 10, QoS.Guaranteed⟩,
        PEvent.clear ⟨"c0", "p", "n0", 1, QoS.Guaranteed⟩,
        PEvent.clear ⟨"c1", "p", "n1", 1, QoS.Guaranteed⟩] ∧
    [PEvent.clear (⟨"c0", "p", "n0", 1, QoS.Guaranteed⟩ : Container),
      PEvent.clear ⟨"c1", "p", "n1", 1, QoS.Guaranteed⟩] ≠
      [PEvent.clear ⟨"c1", "p", "n1", 1, QoS.Guaranteed⟩,
        PEvent.clear ⟨"c0", "p", "n0", 1, QoS.Guaranteed⟩] ∧
    (createPod defaultPolicy true reqC1 sC1).2.2 =
      .error ⟨.CpusNotAvailable, .noAvailableCpus⟩ ∧
    mapLookup (createPod defaultPolicy true reqC1 sC1).1.pods "p" = none ∧
    sC1.allocated = [] ∧
    (createPod defaultPolicy true reqC1 sC1).1.allocated =
      [("c0", [⟨0, 0⟩]), ("c1", [⟨1, 1⟩])] ∧
    (createPod defaultPolicy true reqC1 sC1).1.availableCPUs = [⟨2, 3⟩] :=
  ⟨rfl, by decide, rfl, rfl, rfl, rfl, rfl⟩
